import Mathlib

/-!
# Hierarchy tree: nodes and visitors

A shallow embedding of `tree/node.go`, `tree/visitor.go` and `tree/filter.go`.

* A `*Node` pointer is a `NodeId`; a `NodeIFace` value is an `Option NodeId`
  (`none` is the nil interface).  The heap maps every pointer to its `Node`.
* The field `children []NodeIFace` is the list of entries visible through the
  slice header.  Slices handed to a method (`SetChildren(c...)`) are taken by
  value.  The slice returned by `GetSiblingsAndSelf` shares its backing array
  with the parent's `children`, so the writes `GetSiblings` performs through it
  are writes to the parent's `children`.
* A method that panics (call through a nil interface, index out of range)
  returns `none`.  The recursive visitors take a fuel argument bounding the
  recursion depth and return `none` when it is exhausted.
-/

namespace tree

/-- Address of a `Node` (a non-nil `*Node`). -/
abbrev NodeId := Nat

/-- An interface value holding a `*Node`, or nil. -/
abbrev NodeIFace := Option NodeId

/-- The struct `Node`: value, children, parent. -/
structure Node (V : Type) where
  value : V
  children : List NodeIFace
  parent : NodeIFace

/-- The store: every address holds a node. -/
abbrev Heap (V : Type) := NodeId → Node V

variable {V : Type}

/-- Overwrite the node stored at address `n`. -/
def Heap.store (h : Heap V) (n : NodeId) (x : Node V) : Heap V :=
  fun m => if m = n then x else h m

/-- Source: `func (n *Node) SetValue(v interface{}) NodeIFace` -/
def SetValue (h : Heap V) (n : NodeId) (v : V) : Heap V × NodeIFace :=
  (h.store n { h n with value := v }, some n)

/-- Source: `func (n *Node) GetValue() interface{}` -/
def GetValue (h : Heap V) (n : NodeId) : V := (h n).value

/-- Source: `func (n *Node) SetParent(p NodeIFace) NodeIFace` -/
def SetParent (h : Heap V) (n : NodeId) (p : NodeIFace) : Heap V × NodeIFace :=
  (h.store n { h n with parent := p }, some n)

/-- Source: `func (n *Node) GetParent() NodeIFace` -/
def GetParent (h : Heap V) (n : NodeId) : NodeIFace := (h n).parent

/-- Source: `func (n *Node) GetChildren() []NodeIFace` -/
def GetChildren (h : Heap V) (n : NodeId) : List NodeIFace := (h n).children

/-- Source: `func (n *Node) IsRoot() bool` -/
def IsRoot (h : Heap V) (n : NodeId) : Bool := decide ((h n).parent = none)

/-- Source: `func (n *Node) IsChild() bool` -/
def IsChild (h : Heap V) (n : NodeId) : Bool := decide ((h n).parent ≠ none)

/-- Source: `func (n *Node) IsLeaf() bool` -/
def IsLeaf (h : Heap V) (n : NodeId) : Bool := decide ((h n).children.length = 0)

/-- Source: `func (n *Node) AddChild(c NodeIFace) NodeIFace`: `c.SetParent(n)` panics on a
nil `c`; otherwise the parent of `c` is set first and `c` is appended. -/
def AddChild (h : Heap V) (n : NodeId) (c : NodeIFace) : Option (Heap V × NodeIFace) :=
  match c with
  | none => none
  | some m =>
    let r := SetParent h m (some n)
    let h1 := r.1
    some (h1.store n { h1 n with children := (h1 n).children ++ [r.2] }, some n)

/-- The loop `for i, ch := range s { if c == ch { s[i] = s[len(s)-1];
s[len(s)-1] = nil; s = s[:len(s)-1] } }` shared by `RemoveChild` and
`GetSiblings`.  The indices still to visit are the first argument; the state is
the backing array (as long as the slice was when the loop started) and the
current length of the slice.  Indexing at or beyond the current length panics. -/
def removeLoop (c : NodeIFace) : List Nat → List NodeIFace × Nat → Option (List NodeIFace × Nat)
  | [], st => some st
  | i :: is, st =>
    if c = st.1.getD i none then
      if i < st.2 then
        removeLoop c is ((st.1.set i (st.1.getD (st.2 - 1) none)).set (st.2 - 1) none, st.2 - 1)
      else none
    else removeLoop c is st

/-- The whole range loop over a slice `s`. -/
def removeRange (c : NodeIFace) (s : List NodeIFace) : Option (List NodeIFace × Nat) :=
  removeLoop c (List.range s.length) (s, s.length)

/-- Source: `func (n *Node) RemoveChild(c NodeIFace) NodeIFace` -/
def RemoveChild (h : Heap V) (n : NodeId) (c : NodeIFace) : Option (Heap V × NodeIFace) :=
  match removeRange c (h n).children with
  | none => none
  | some (arr, len) =>
    let h1 := h.store n { h n with children := arr.take len }
    match c with
    | none => none
    | some m => some ((SetParent h1 m none).1, some n)

/-- The loop `for _, c := range cs { c.SetParent(nil) }`. -/
def clearParents (h : Heap V) : List NodeIFace → Option (Heap V)
  | [] => some h
  | none :: _ => none
  | some m :: cs => clearParents (SetParent h m none).1 cs

/-- Source: `func (n *Node) RemoveAllChildren() NodeIFace` -/
def RemoveAllChildren (h : Heap V) (n : NodeId) : Option (Heap V × NodeIFace) :=
  match clearParents h (h n).children with
  | none => none
  | some h1 => some (h1.store n { h1 n with children := [] }, some n)

/-- The loop `for _, cc := range c { n = n.AddChild(cc).(*Node) }`. -/
def addChildren (h : Heap V) (n : NodeId) : List NodeIFace → Option (Heap V × NodeId)
  | [] => some (h, n)
  | cc :: cs =>
    match AddChild h n cc with
    | some (h1, some n1) => addChildren h1 n1 cs
    | _ => none

/-- Source: `func (n *Node) SetChildren(c ...NodeIFace) NodeIFace` -/
def SetChildren (h : Heap V) (n : NodeId) (c : List NodeIFace) : Option (Heap V × NodeIFace) :=
  match clearParents h (GetChildren h n) with
  | none => none
  | some h1 =>
    match addChildren h1 n c with
    | none => none
    | some (h2, n2) => some (h2, some n2)

/-- Source: `func (n *Node) GetSiblingsAndSelf() []NodeIFace`: `n.GetParent().GetChildren()`. -/
def GetSiblingsAndSelf (h : Heap V) (n : NodeId) : Option (List NodeIFace) :=
  match GetParent h n with
  | none => none
  | some p => some (GetChildren h p)

/-- Source: `func (n *Node) GetSiblings() []NodeIFace`.  Returns the slice and the heap
after the call: the loop writes through the parent's backing array, whose
slice header in the parent keeps its length. -/
def GetSiblings (h : Heap V) (n : NodeId) : Option (List NodeIFace × Heap V) :=
  match GetParent h n with
  | none => none
  | some p =>
    match removeRange (some n) (GetChildren h p) with
    | none => none
    | some (arr, len) => some (arr.take len, h.store p { h p with children := arr })

/-- The loop of `GetAncestors`: `for { if p := node.GetParent(); p != nil { parents =
append([]NodeIFace{p}, parents...); node = p.(*Node); continue }; break }`.  The
fuel bounds the number of iterations. -/
def ancestorsLoop (h : Heap V) : Nat → NodeId → List NodeIFace → Option (List NodeIFace)
  | 0, _, _ => none
  | fuel + 1, node, parents =>
    match GetParent h node with
    | some p => ancestorsLoop h fuel p (some p :: parents)
    | none => some parents

/-- Source: `func (n *Node) GetAncestors() []NodeIFace` -/
def GetAncestors (h : Heap V) (fuel : Nat) (n : NodeId) : Option (List NodeIFace) :=
  ancestorsLoop h fuel n []

/-- Source: `func (n *Node) GetAncestorsAndSelf() []NodeIFace` -/
def GetAncestorsAndSelf (h : Heap V) (fuel : Nat) (n : NodeId) : Option (List NodeIFace) :=
  match GetAncestors h fuel n with
  | none => none
  | some parents => some (parents ++ [some n])

/-- Source: `func (n *Node) GetDepth() int`; the recursive call goes through the
interface value `n.GetParent()`. -/
def GetDepth (h : Heap V) : Nat → NodeId → Option Nat
  | 0, _ => none
  | fuel + 1, n =>
    if IsRoot h n then some 0
    else
      match GetParent h n with
      | none => none
      | some p =>
        match GetDepth h fuel p with
        | none => none
        | some d => some (d + 1)

/-- Source: `func maxIntSlice(v []int) (m int)`, on the non-negative heights its
only caller `GetHeight` passes. -/
def maxIntSlice (v : List Nat) : Nat :=
  (v.drop 1).foldl (fun m x => if x > m then x else m) (v.headD 0)

/-- The loop `for _, c := range cs { heights = append(heights, c.GetHeight()) }`. -/
def collectHeights (height : NodeIFace → Option Nat) : List NodeIFace → List Nat → Option (List Nat)
  | [], heights => some heights
  | c :: cs, heights =>
    match height c with
    | none => none
    | some x => collectHeights height cs (heights ++ [x])

/-- Source: `func (n *Node) GetHeight() int`, on an interface value. -/
def GetHeight (h : Heap V) : Nat → NodeIFace → Option Nat
  | 0, _ => none
  | _ + 1, none => none
  | fuel + 1, some n =>
    if IsLeaf h n then some 0
    else
      match collectHeights (GetHeight h fuel) (GetChildren h n) [] with
      | none => none
      | some heights => some (maxIntSlice heights + 1)

/-- The loop `for _, child := range cs { size += child.GetSize() }`. -/
def addSizes (size : NodeIFace → Option Nat) : List NodeIFace → Nat → Option Nat
  | [], acc => some acc
  | c :: cs, acc =>
    match size c with
    | none => none
    | some x => addSizes size cs (acc + x)

/-- Source: `func (n *Node) GetSize() int`, on an interface value. -/
def GetSize (h : Heap V) : Nat → NodeIFace → Option Nat
  | 0, _ => none
  | _ + 1, none => none
  | fuel + 1, some n => addSizes (GetSize h fuel) (GetChildren h n) 1

/-- Source: `func NewNode(v interface{}, children *[]NodeIFace) NodeIFace`.  The
address `a` is the one the allocation `n := &Node{children: make([]NodeIFace, 0)}`
yields: the new struct has the zero value nil in `value` (the `default` of the
value type) and in `parent`, and an empty `children`.  The value is set by
`n.SetValue(v)` only, and `SetChildren` is called on what `SetValue` returns. -/
def NewNode [Inhabited V] (h : Heap V) (a : NodeId) (v : V)
    (children : Option (List NodeIFace)) : Option (Heap V × NodeIFace) :=
  let h0 := h.store a { value := default, children := [], parent := none }
  let r := SetValue h0 a v
  match children with
  | some cs =>
    match r.2 with
    | none => none
    | some m => SetChildren r.1 m cs
  | none => some r

/-- Source: `func (n *Node) Accept(v VisitorIFace) interface{}` called through the
interface value `n`: a nil `n` panics, otherwise `v.Visit(n)`. -/
def Accept {R : Type} (visit : NodeIFace → Option R) (n : NodeIFace) : Option R :=
  match n with
  | none => none
  | some m => visit (some m)

/-- The loop `for _, child := range cs { nodes = append(nodes, child.Accept(v)...) }`. -/
def appendVisits (accept : NodeIFace → Option (List NodeIFace)) :
    List NodeIFace → List NodeIFace → Option (List NodeIFace)
  | [], nodes => some nodes
  | child :: cs, nodes =>
    match accept child with
    | none => none
    | some vNodes => appendVisits accept cs (nodes ++ vNodes)

/-- Source: `func (v *PreOrderVisitor) Visit(n NodeIFace) interface{}` -/
def PreOrderVisit (h : Heap V) : Nat → NodeIFace → Option (List NodeIFace)
  | 0, _ => none
  | _ + 1, none => none
  | fuel + 1, some n =>
    appendVisits (Accept (PreOrderVisit h fuel)) (GetChildren h n) [some n]

/-- Source: `func (v *PostOrderVisitor) Visit(n NodeIFace) interface{}` -/
def PostOrderVisit (h : Heap V) : Nat → NodeIFace → Option (List NodeIFace)
  | 0, _ => none
  | _ + 1, none => none
  | fuel + 1, some n =>
    match appendVisits (Accept (PostOrderVisit h fuel)) (GetChildren h n) [] with
    | none => none
    | some nodes => some (nodes ++ [some n])

/-- Source: `func (v *LeafVisitor) Visit(n NodeIFace) interface{}` -/
def LeafVisit (h : Heap V) : Nat → NodeIFace → Option (List NodeIFace)
  | 0, _ => none
  | _ + 1, none => none
  | fuel + 1, some n =>
    if IsLeaf h n then some [some n]
    else appendVisits (Accept (LeafVisit h fuel)) (GetChildren h n) []

/-- Source: `type FilterFunc func(NodeIFace) bool` -/
abbrev FilterFunc := NodeIFace → Bool

/-- Source: `func (v *FilterVisitor) Visit(n NodeIFace) interface{}` -/
def FilterVisit (h : Heap V) (filter : FilterFunc) : Nat → NodeIFace → Option (List NodeIFace)
  | 0, _ => none
  | _ + 1, none => none
  | fuel + 1, some n =>
    appendVisits (Accept (FilterVisit h filter fuel)) (GetChildren h n)
      (if filter (some n) then [some n] else [])

/-! ## Example heaps -/

/-- A heap of fresh nodes `NewNode(a, nil)` at every address `a`. -/
def fresh : Heap Nat := fun a => { value := a, children := [], parent := none }

/-- Chain `AddChild` calls on a heap. -/
def addAll (h : Heap V) : List (NodeId × NodeId) → Option (Heap V)
  | [] => some h
  | (n, c) :: rest =>
    match AddChild h n (some c) with
    | none => none
    | some r => addAll r.1 rest

/-- The seven node tree `root{a{d,e}, b{f}, c}` of the visitor tests, with
`root = 0, a = 1, b = 2, c = 3, d = 4, e = 5, f = 6`. -/
def sevenNodes : Heap Nat :=
  (addAll fresh [(0, 1), (0, 2), (0, 3), (1, 4), (1, 5), (2, 6)]).getD fresh

/-- A heap with node `0` holding the children `[1, 1, 1]`. -/
def tripleChild : Heap Nat := (addAll fresh [(0, 1), (0, 1), (0, 1)]).getD fresh

/-- A heap with node `0` holding the children `[1, 2, 1]`. -/
def repeatedChild : Heap Nat := (addAll fresh [(0, 1), (0, 2), (0, 1)]).getD fresh

/-- A heap with node `0` holding the single child `1`. -/
def oneChild : Heap Nat := (addAll fresh [(0, 1)]).getD fresh

/-! ## Predicates used in the statements -/

/-- Loop invariant of `removeLoop`: the current length is within the backing
array and the entries at or beyond it have been erased. -/
def Erased (st : List NodeIFace × Nat) : Prop :=
  st.2 ≤ st.1.length ∧ ∀ j, st.2 ≤ j → st.1.getD j none = none

/-- Parent/child consistency: a node whose parent is `p` occurs among the
children of `p`. -/
def Consistent (h : Heap V) : Prop :=
  ∀ x p, GetParent h x = some p → some x ∈ GetChildren h p

/-- The mutation operations of a node, with receiver and arguments. -/
inductive Mutation where
  | addChild (n : NodeId) (c : NodeIFace)
  | removeChild (n : NodeId) (c : NodeIFace)
  | removeAllChildren (n : NodeId)
  | setChildren (n : NodeId) (cs : List NodeIFace)

/-- Run a mutation operation on a heap. -/
def Mutation.run (h : Heap V) : Mutation → Option (Heap V × NodeIFace)
  | .addChild n c => AddChild h n c
  | .removeChild n c => RemoveChild h n c
  | .removeAllChildren n => RemoveAllChildren h n
  | .setChildren n cs => SetChildren h n cs

/-- The graph of child links below `n` is finite and acyclic, with fewer than
`k` levels, and no child entry is nil. -/
def acyclicWithin (h : Heap V) : Nat → NodeId → Bool
  | 0, _ => false
  | k + 1, n => (GetChildren h n).all fun c =>
      match c with
      | none => false
      | some m => acyclicWithin h k m

/-- The graph of child links below `n` is a finite tree with fewer than `k`
levels: no node lists a child twice, no child entry is nil, and the parent
link of every child points back to the node that lists it. -/
def isTree (h : Heap V) : Nat → NodeId → Bool
  | 0, _ => false
  | k + 1, n => decide (GetChildren h n).Nodup && (GetChildren h n).all fun c =>
      match c with
      | none => false
      | some m => decide (GetParent h m = some n) && isTree h k m

/-- Node `d` is reached from node `m` by following one or more child links. -/
inductive Descendant (h : Heap V) : NodeId → NodeId → Prop where
  | child {m d : NodeId} : some d ∈ GetChildren h m → Descendant h m d
  | step {m c d : NodeId} : some c ∈ GetChildren h m → Descendant h c d → Descendant h m d

/-- A call modelled with fuel returns `r`: it yields `r` for every large enough
fuel. -/
def Returns {α : Type} (run : Nat → Option α) (r : α) : Prop :=
  ∃ k, ∀ fuel, k ≤ fuel → run fuel = some r

/-- The filter function `func(n NodeIFace) bool { return n.IsLeaf() }`, false on nil. -/
def leafFilter (h : Heap V) : FilterFunc := fun c =>
  match c with
  | none => false
  | some m => IsLeaf h m

/-- The nodes of the list form a chain of parent links read from the top: the
first node has parent `parent`, every later node has the node before it as
parent.  With `parent = none` the first node is a root. -/
def chainFrom (h : Heap V) (parent : NodeIFace) : List NodeId → Bool
  | [] => true
  | p :: ps => decide (GetParent h p = parent) && chainFrom h (some p) ps

/-- Node `d` is reached from node `a` by following the child links through the
nodes of `path`, whose last node is `d` (`path` is empty when `d` is `a`). -/
def childPathTo (h : Heap V) : NodeId → List NodeId → NodeId → Bool
  | a, [], d => decide (a = d)
  | a, b :: rest, d => decide (some b ∈ GetChildren h a) && childPathTo h b rest d


/-- Node `d` is reached from node `a` by following the child links through the
nodes of `path`, and the parent link of every node on the way points back to
the node it was reached from. -/
def linkedPathTo (h : Heap V) : NodeId → List NodeId → NodeId → Bool
  | a, [], d => decide (a = d)
  | a, b :: rest, d =>
    decide (some b ∈ GetChildren h a) && decide (GetParent h b = some a) &&
      linkedPathTo h b rest d

/-- The heap after `t.AddChild(s); r.AddChild(a); s.AddChild(a)` on fresh nodes,
with `t = 5, s = 6, r = 0, a = 1`: node `1` is listed by node `0` and by node
`6`, and its parent is node `6`. -/
def reparented : Heap Nat := (addAll fresh [(5, 6), (0, 1), (6, 1)]).getD fresh

/-- The heap after `r.AddChild(a); r.SetChildren(b)` on fresh nodes, with
`r = 0, a = 1, b = 2`. -/
def keptChild : Heap Nat :=
  ((SetChildren oneChild 0 [some 2]).map (fun r => r.1)).getD fresh


/-! ## The heap after `SetParent`, `AddChild` and the helper loops -/

theorem store_apply (h : Heap V) (n : NodeId) (x : Node V) (m : NodeId) :
    (h.store n x) m = if m = n then x else h m := rfl

theorem SetParent_children (h : Heap V) (m : NodeId) (p : NodeIFace) (k : NodeId) :
    ((SetParent h m p).1 k).children = (h k).children := by
  simp only [SetParent, store_apply]
  split <;> simp_all

theorem SetParent_parent (h : Heap V) (m : NodeId) (p : NodeIFace) (k : NodeId) :
    ((SetParent h m p).1 k).parent = if k = m then p else (h k).parent := by
  simp only [SetParent, store_apply]
  split <;> simp_all

theorem SetParent_value (h : Heap V) (m : NodeId) (p : NodeIFace) (k : NodeId) :
    ((SetParent h m p).1 k).value = (h k).value := by
  simp only [SetParent, store_apply]
  split <;> simp_all

theorem AddChild_some (h : Heap V) (n m : NodeId) :
    ∃ h1, AddChild h n (some m) = some (h1, some n) ∧
      (∀ k, (h1 k).children = if k = n then (h k).children ++ [some m] else (h k).children) ∧
      (∀ k, (h1 k).parent = if k = m then some n else (h k).parent) ∧
      (∀ k, (h1 k).value = (h k).value) := by
  refine ⟨_, rfl, ?_, ?_, ?_⟩
  · intro k
    simp only [store_apply]
    split
    · subst k
      show ((SetParent h m (some n)).1 n).children ++ [some m] = _
      rw [SetParent_children]
    · exact SetParent_children h m (some n) k
  · intro k
    simp only [store_apply]
    split
    · subst k; simp only []; exact SetParent_parent h m (some n) n
    · exact SetParent_parent h m (some n) k
  · intro k
    simp only [store_apply]
    split
    · subst k; simp only []; exact SetParent_value h m (some n) n
    · exact SetParent_value h m (some n) k

theorem clearParents_spec (cs : List NodeIFace) (h : Heap V) (hcs : none ∉ cs) :
    ∃ h1, clearParents h cs = some h1 ∧
      (∀ k, (h1 k).children = (h k).children) ∧
      (∀ k, (h1 k).parent = if some k ∈ cs then none else (h k).parent) ∧
      (∀ k, (h1 k).value = (h k).value) := by
  induction cs generalizing h with
  | nil => exact ⟨h, rfl, fun _ => rfl, fun _ => by simp, fun _ => rfl⟩
  | cons c cs ih =>
    cases c with
    | none => simp at hcs
    | some m =>
      have hcs1 : none ∉ cs := fun hx => hcs (List.mem_cons_of_mem _ hx)
      obtain ⟨h1, e, hc, hp, hv⟩ := ih (SetParent h m none).1 hcs1
      refine ⟨h1, e, ?_, ?_, ?_⟩
      · intro k; rw [hc, SetParent_children]
      · intro k
        rw [hp, SetParent_parent]
        by_cases hk : some k ∈ cs
        · simp [hk]
        · by_cases hkm : k = m
          · simp [hkm]
          · simp [hk, hkm]
      · intro k; rw [hv, SetParent_value]

theorem clearParents_none (cs : List NodeIFace) (h : Heap V) (hcs : none ∈ cs) :
    clearParents h cs = none := by
  induction cs generalizing h with
  | nil => simp at hcs
  | cons c cs ih =>
    cases c with
    | none => rfl
    | some m =>
      have hcs1 : none ∈ cs := by simpa using hcs
      exact ih _ hcs1

theorem addChildren_spec (cs : List NodeIFace) (h : Heap V) (n : NodeId) (hcs : none ∉ cs) :
    ∃ h1, addChildren h n cs = some (h1, n) ∧
      (∀ k, (h1 k).children = if k = n then (h k).children ++ cs else (h k).children) ∧
      (∀ k, (h1 k).parent = if some k ∈ cs then some n else (h k).parent) ∧
      (∀ k, (h1 k).value = (h k).value) := by
  induction cs generalizing h with
  | nil => exact ⟨h, rfl, fun _ => by simp, fun _ => by simp, fun _ => rfl⟩
  | cons c cs ih =>
    cases c with
    | none => simp at hcs
    | some m =>
      have hcs1 : none ∉ cs := fun hx => hcs (List.mem_cons_of_mem _ hx)
      obtain ⟨h0, e0, hc0, hp0, hv0⟩ := AddChild_some h n m
      obtain ⟨h1, e, hc, hp, hv⟩ := ih h0 hcs1
      refine ⟨h1, ?_, ?_, ?_, ?_⟩
      · simp only [addChildren, e0, e]
      · intro k
        rw [hc, hc0]
        split <;> simp
      · intro k
        rw [hp, hp0]
        by_cases hk : some k ∈ cs
        · simp [hk]
        · by_cases hkm : k = m
          · simp [hkm]
          · simp [hk, hkm]
      · intro k; rw [hv, hv0]

theorem addChildren_none (cs : List NodeIFace) (h : Heap V) (n : NodeId) (hcs : none ∈ cs) :
    addChildren h n cs = none := by
  induction cs generalizing h with
  | nil => simp at hcs
  | cons c cs ih =>
    cases c with
    | none => rfl
    | some m =>
      have hcs1 : none ∈ cs := by simpa using hcs
      obtain ⟨h0, e0, -⟩ := AddChild_some h n m
      simp only [addChildren, e0]
      exact ih h0 hcs1

theorem SetChildren_spec (h : Heap V) (n : NodeId) (cs : List NodeIFace)
    (hold : none ∉ GetChildren h n) (hcs : none ∉ cs) :
    ∃ h1, SetChildren h n cs = some (h1, some n) ∧
      (∀ k, (h1 k).children = if k = n then (h k).children ++ cs else (h k).children) ∧
      (∀ k, (h1 k).parent = if some k ∈ cs then some n
          else if some k ∈ GetChildren h n then none else (h k).parent) ∧
      (∀ k, (h1 k).value = (h k).value) := by
  obtain ⟨h0, e0, hc0, hp0, hv0⟩ := clearParents_spec (GetChildren h n) h hold
  obtain ⟨h1, e, hc, hp, hv⟩ := addChildren_spec cs h0 n hcs
  refine ⟨h1, ?_, ?_, ?_, ?_⟩
  · simp only [SetChildren, e0, e]
  · intro k; rw [hc, hc0]
  · intro k; rw [hp, hp0]
  · intro k; rw [hv, hv0]

/-! ## The swap-remove loop -/

theorem swap_count (arr : List NodeIFace) (z : NodeIFace) (len i : Nat) (d : NodeIFace)
    (hi : i < len) (hlen : len ≤ arr.length) :
    List.count d (((arr.set i (arr.getD (len - 1) z)).set (len - 1) z).take (len - 1))
        + (if arr.getD i z = d then 1 else 0)
      = List.count d (arr.take len) := by
  obtain ⟨L, rfl⟩ : ∃ L, len = L + 1 := ⟨len - 1, by omega⟩
  have hL : L < arr.length := by omega
  simp only [Nat.add_sub_cancel]
  have e1 : ((arr.set i (arr.getD L z)).set L z).take L = (arr.take L).set i (arr.getD L z) := by
    rw [List.set_take, List.set_take]
    apply List.set_eq_of_length_le
    simp
  have e2 : arr.take (L + 1) = arr.take L ++ [arr.getD L z] := by
    rw [List.take_succ]
    simp [List.getElem?_eq_getElem hL]
  rw [e1, e2, List.count_append]
  have hib : i < arr.length := by omega
  have hgi : arr.getD i z = arr[i] := by
    simp [List.getElem?_eq_getElem hib]
  by_cases hiL : i < L
  · have hlt : i < (arr.take L).length := by simp; omega
    rw [List.count_set _ _ _ _ hlt]
    have hti : (arr.take L)[i] = arr[i] := by simp
    rw [hti, hgi]
    have hpos : (if arr[i] = d then 1 else 0) ≤ List.count d (arr.take L) := by
      split
      · rename_i hd
        apply List.count_pos_iff.mpr
        rw [← hd, ← hti]
        exact List.getElem_mem _
      · omega
    simp only [beq_iff_eq, List.count_singleton]
    omega
  · have hiL2 : i = L := by omega
    subst hiL2
    rw [List.set_eq_of_length_le (by simp)]
    simp only [List.count_singleton, beq_iff_eq]

theorem removeLoop_nomatch (c : NodeIFace) (idxs : List Nat) (st : List NodeIFace × Nat)
    (hno : ∀ i ∈ idxs, c ≠ st.1.getD i none) : removeLoop c idxs st = some st := by
  induction idxs with
  | nil => rfl
  | cons i is ih =>
    have h1 := hno i (List.mem_cons_self _ _)
    simp only [removeLoop, if_neg h1]
    exact ih (fun j hj => hno j (List.mem_cons_of_mem _ hj))

theorem removeLoop_append (c : NodeIFace) (xs ys : List Nat) (st : List NodeIFace × Nat) :
    removeLoop c (xs ++ ys) st = (removeLoop c xs st).bind (removeLoop c ys) := by
  induction xs generalizing st with
  | nil => simp [removeLoop]
  | cons i is ih =>
    simp only [List.cons_append, removeLoop]
    split
    · split
      · exact ih _
      · rfl
    · exact ih _

theorem Erased_step (m : NodeId) (st : List NodeIFace × Nat) (i : Nat) (hJ : Erased st)
    (hc : some m = st.1.getD i none) :
    i < st.2 ∧ Erased ((st.1.set i (st.1.getD (st.2 - 1) none)).set (st.2 - 1) none, st.2 - 1) := by
  obtain ⟨hle, her⟩ := hJ
  have hi : i < st.2 := by
    by_contra hn
    have := her i (by omega)
    rw [this] at hc
    cases hc
  refine ⟨hi, ?_, ?_⟩
  · simp only [List.length_set]; omega
  · intro j hj
    simp only [List.getD_eq_getElem?_getD, List.getElem?_set, List.length_set]
    by_cases hj1 : st.2 - 1 = j
    · simp only [hj1, if_true]; split <;> rfl
    · have hij : i ≠ j := by omega
      simp only [if_neg hj1, if_neg hij]
      have := her j (by omega)
      simpa using this

theorem removeLoop_inv (m : NodeId) (idxs : List Nat) (st : List NodeIFace × Nat)
    (hJ : Erased st) :
    ∃ st1, removeLoop (some m) idxs st = some st1 ∧ Erased st1 ∧
      st1.1.length = st.1.length ∧ st1.2 ≤ st.2 ∧
      (∀ d, d ≠ some m → List.count d (st1.1.take st1.2) = List.count d (st.1.take st.2)) ∧
      st1.2 + List.count (some m) (st.1.take st.2)
        = st.2 + List.count (some m) (st1.1.take st1.2) := by
  induction idxs generalizing st with
  | nil => exact ⟨st, rfl, hJ, rfl, le_refl _, fun _ _ => rfl, rfl⟩
  | cons i is ih =>
    by_cases hc : some m = st.1.getD i none
    · obtain ⟨hi, hJ1⟩ := Erased_step m st i hJ hc
      obtain ⟨st1, e, hE, hlen, hle, hcnt, hsum⟩ := ih _ hJ1
      refine ⟨st1, ?_, hE, ?_, ?_, ?_, ?_⟩
      · simp only [removeLoop, if_pos hc, if_pos hi]; exact e
      · rw [hlen]; simp
      · exact le_trans hle (Nat.sub_le _ _)
      · intro d hd
        rw [hcnt d hd]
        have := swap_count st.1 none st.2 i d hi hJ.1
        rw [if_neg (fun hx => hd (hx ▸ hc).symm)] at this
        simpa using this
      · have := swap_count st.1 none st.2 i (some m) hi hJ.1
        rw [if_pos hc.symm] at this
        dsimp only at hsum this
        omega
    · obtain ⟨st1, e, hE, hlen, hle, hcnt, hsum⟩ := ih st hJ
      exact ⟨st1, by simp only [removeLoop, if_neg hc]; exact e, hE, hlen, hle, hcnt, hsum⟩

theorem Erased_init (s : List NodeIFace) : Erased (s, s.length) := by
  refine ⟨le_refl _, fun j hj => ?_⟩
  simp only [List.getD_eq_getElem?_getD]
  rw [List.getElem?_eq_none (by simpa using hj)]
  rfl

/-- The range loop with a non-nil target never panics; it keeps the number of
occurrences of every other entry, and shortens the slice by the number of
occurrences of the target it removes. -/
theorem removeRange_spec (m : NodeId) (s : List NodeIFace) :
    ∃ arr len, removeRange (some m) s = some (arr, len) ∧ arr.length = s.length ∧
      len ≤ s.length ∧
      (∀ j, len ≤ j → arr.getD j none = none) ∧
      (∀ d, d ≠ some m → List.count d (arr.take len) = List.count d s) ∧
      len + List.count (some m) s = s.length + List.count (some m) (arr.take len) := by
  obtain ⟨st1, e, hE, hlen, hle, hcnt, hsum⟩ :=
    removeLoop_inv m (List.range s.length) (s, s.length) (Erased_init s)
  refine ⟨st1.1, st1.2, e, hlen, hle, hE.2, ?_, ?_⟩
  · intro d hd; simpa using hcnt d hd
  · simpa using hsum

/-- When the target occurs at index `i` and nowhere else, the loop moves the
last entry into index `i`, erases the last entry and shortens the slice by one. -/
theorem removeRange_unique (m : NodeId) (s : List NodeIFace) (i : Nat) (hi : i < s.length)
    (hat : s.getD i none = some m) (hne : ∀ j, j ≠ i → s.getD j none ≠ some m) :
    removeRange (some m) s
      = some ((s.set i (s.getD (s.length - 1) none)).set (s.length - 1) none, s.length - 1) := by
  have hr : List.range s.length = List.range i ++ (i :: List.range' (i + 1) (s.length - i - 1)) := by
    rw [List.range_eq_range', List.range_eq_range']
    have h1 : List.range' 0 s.length = List.range' 0 i ++ List.range' (0 + i) (s.length - i) := by
      rw [List.range'_append_1]; congr 1; omega
    rw [h1]
    congr 1
    have h2 : s.length - i = (s.length - i - 1) + 1 := by omega
    rw [h2, List.range'_succ]
    simp
  unfold removeRange
  rw [hr, removeLoop_append, removeLoop_nomatch]
  · simp only [Option.some_bind, removeLoop]
    rw [if_pos hat.symm, if_pos hi]
    apply removeLoop_nomatch
    intro j hj
    have hj1 : i + 1 ≤ j ∧ j < s.length := by
      have := List.mem_range'_1.mp hj
      omega
    simp only [List.getD_eq_getElem?_getD, List.getElem?_set, List.length_set]
    by_cases hj2 : s.length - 1 = j
    · simp only [hj2, if_true]; split <;> simp
    · have hij : i ≠ j := by omega
      simp only [if_neg hj2, if_neg hij]
      have := hne j (by omega)
      simp only [List.getD_eq_getElem?_getD] at this
      exact fun hx => this hx.symm
  · intro j hj
    have := hne j (by have := List.mem_range.mp hj; omega)
    exact fun hx => this hx.symm

/-- When the target does not occur, the loop leaves the slice as it is. -/
theorem removeRange_absent (c : NodeIFace) (s : List NodeIFace) (hc : c ∉ s) :
    removeRange c s = some (s, s.length) := by
  apply removeLoop_nomatch
  intro j hj hx
  have hj1 := List.mem_range.mp hj
  simp only [List.getD_eq_getElem?_getD, List.getElem?_eq_getElem hj1, Option.getD_some] at hx
  exact hc (hx ▸ List.getElem_mem _)

/-! ## The heap after `RemoveChild` and `RemoveAllChildren` -/

theorem RemoveChild_spec (h : Heap V) (n m : NodeId) :
    ∃ h1 arr len, removeRange (some m) (h n).children = some (arr, len) ∧
      RemoveChild h n (some m) = some (h1, some n) ∧
      (∀ k, (h1 k).children = if k = n then arr.take len else (h k).children) ∧
      (∀ k, (h1 k).parent = if k = m then none else (h k).parent) ∧
      (∀ k, (h1 k).value = (h k).value) := by
  obtain ⟨arr, len, e, -⟩ := removeRange_spec m (h n).children
  refine ⟨(SetParent (h.store n { h n with children := arr.take len }) m none).1, arr, len, e,
    by simp only [RemoveChild, e], ?_, ?_, ?_⟩
  · intro k
    rw [SetParent_children, store_apply]
    split <;> rfl
  · intro k
    rw [SetParent_parent, store_apply]
    by_cases hkm : k = m
    · simp [hkm]
    · simp only [if_neg hkm]
      split
      · subst k; rfl
      · rfl
  · intro k
    rw [SetParent_value, store_apply]
    split
    · subst k; rfl
    · rfl

theorem RemoveAllChildren_spec (h : Heap V) (n : NodeId) (hcs : none ∉ GetChildren h n) :
    ∃ h1, RemoveAllChildren h n = some (h1, some n) ∧
      (∀ k, (h1 k).children = if k = n then [] else (h k).children) ∧
      (∀ k, (h1 k).parent = if some k ∈ GetChildren h n then none else (h k).parent) ∧
      (∀ k, (h1 k).value = (h k).value) := by
  obtain ⟨h0, e0, hc0, hp0, hv0⟩ := clearParents_spec (GetChildren h n) h hcs
  have e0x : clearParents h (h n).children = some h0 := e0
  refine ⟨h0.store n { h0 n with children := [] }, by simp only [RemoveAllChildren, e0x],
    ?_, ?_, ?_⟩
  · intro k
    rw [store_apply]
    split
    · rfl
    · exact hc0 k
  · intro k
    rw [store_apply, ← hp0 k]
    split
    · subst k; rfl
    · rfl
  · intro k
    rw [store_apply, ← hv0 k]
    split
    · subst k; rfl
    · rfl

theorem count_le_one_unique (s : List NodeIFace) (c : NodeIFace) (hc : List.count c s ≤ 1)
    (i j : Nat) (hi : s.getD i none = c) (hj : s.getD j none = c)
    (hil : i < s.length) (hjl : j < s.length) : i = j := by
  induction s generalizing i j with
  | nil => simp at hil
  | cons a t ih =>
    have hmem : ∀ k, k < t.length → t.getD k none = c → 0 < List.count c t := by
      intro k hk hkc
      apply List.count_pos_iff.mpr
      simp only [List.getD_eq_getElem?_getD, List.getElem?_eq_getElem hk, Option.getD_some] at hkc
      exact hkc ▸ List.getElem_mem _
    cases i with
    | zero =>
      cases j with
      | zero => rfl
      | succ j =>
        exfalso
        have ha : a = c := by simpa using hi
        have := hmem j (by simpa using hjl) (by simpa using hj)
        rw [ha, List.count_cons_self] at hc
        omega
    | succ i =>
      cases j with
      | zero =>
        exfalso
        have ha : a = c := by simpa using hj
        have := hmem i (by simpa using hil) (by simpa using hi)
        rw [ha, List.count_cons_self] at hc
        omega
      | succ j =>
        have hc1 : List.count c t ≤ 1 := le_trans (List.count_le_count_cons _ _ _) hc
        have := ih hc1 i j (by simpa using hi) (by simpa using hj) (by simpa using hil)
          (by simpa using hjl)
        omega

/-- The result of the range loop when the target stands at index `i` and occurs
at most once. -/
theorem removeRange_at (m : NodeId) (s : List NodeIFace) (hc : List.count (some m) s ≤ 1)
    (i : Nat) (hil : i < s.length) (hi : s.getD i none = some m) :
    removeRange (some m) s
      = some ((s.set i (s.getD (s.length - 1) none)).set (s.length - 1) none, s.length - 1) := by
  apply removeRange_unique m s i hil hi
  intro j hji hj
  by_cases hjl : j < s.length
  · exact hji (count_le_one_unique s (some m) hc j i hj hi hjl hil)
  · simp only [List.getD_eq_getElem?_getD] at hj
    rw [List.getElem?_eq_none (by omega)] at hj
    cases hj

theorem take_set_set (s : List NodeIFace) (i : Nat) (a b : NodeIFace) :
    ((s.set i a).set (s.length - 1) b).take (s.length - 1) = (s.set i a).take (s.length - 1) := by
  rw [List.set_take]
  apply List.set_eq_of_length_le
  simp

/-! ## Node operations: the claims -/

/-- C1: `SetChildren` does not replace the children of a node that already has
some.  On the heap where node `0` has the single child `1`, `SetChildren(2)`
returns node `0` with the children `[1, 2]`: the previous child is kept in the
sequence (its parent is cleared) and the new one is appended after it. -/
theorem SetChildren_keeps_previous_children :
    GetChildren oneChild 0 = [some 1] ∧
    (SetChildren oneChild 0 [some 2]).map (fun r => (GetChildren r.1 0, GetParent r.1 1, r.2))
      = some ([some 1, some 2], none, some 0) := by
  decide

/-- C2 (as stated, refuted): node `0` has the children `[1, 1, 1]`; after
`RemoveChild(1)` one child is left, so the length dropped by two although node
`1` was a child. -/
theorem RemoveChild_length_counterexample :
    some 1 ∈ GetChildren tripleChild 0 ∧ (GetChildren tripleChild 0).length = 3 ∧
    (RemoveChild tripleChild 0 (some 1)).map (fun r => (GetChildren r.1 0).length) = some 1 := by
  decide

/-- C2 (amended): `n.RemoveChild(c)` returns `n`; afterwards the parent of `c` is
nil; the children of `n` are unchanged (so their number is) if `c` was not a
child of `n`, and their number is exactly one less if `c` occurred exactly once
among them. -/
theorem RemoveChild_parent_and_length (h : Heap V) (n c : NodeId) :
    ∃ h1, RemoveChild h n (some c) = some (h1, some n) ∧
      GetParent h1 c = none ∧
      (some c ∉ GetChildren h n →
        GetChildren h1 n = GetChildren h n ∧
        (GetChildren h1 n).length = (GetChildren h n).length) ∧
      (List.count (some c) (GetChildren h n) = 1 →
        (GetChildren h1 n).length + 1 = (GetChildren h n).length) := by
  obtain ⟨h1, arr, len, e, hr, hch, hpa, -⟩ := RemoveChild_spec h n c
  refine ⟨h1, hr, ?_, ?_, ?_⟩
  · simp only [GetParent, hpa, if_true]
  · intro hc
    have e2 := removeRange_absent (some c) (h n).children hc
    rw [e] at e2
    injection e2 with e2
    injection e2 with ea el
    have : GetChildren h1 n = GetChildren h n := by
      simp only [GetChildren, hch, if_true, ea, el, List.take_length]
    exact ⟨this, by rw [this]⟩
  · intro hc
    have hmem : some c ∈ (h n).children := List.count_pos_iff.mp (by unfold GetChildren at hc; omega)
    obtain ⟨i, hil, hi⟩ := List.getElem_of_mem hmem
    have hi2 : (h n).children.getD i none = some c := by
      simp [List.getElem?_eq_getElem hil, hi]
    have e2 := removeRange_at c (h n).children (le_of_eq hc) i hil hi2
    rw [e] at e2
    injection e2 with e2
    injection e2 with ea el
    simp only [GetChildren, hch, if_true, ea, el, List.length_take, List.length_set]
    omega

/-- Witness for C2 (amended): removing the first child `a` of the root of the
seven node tree, where it occurs once. -/
theorem RemoveChild_parent_and_length_witness :
    List.count (some 1) (GetChildren sevenNodes 0) = 1 ∧
    ∃ h1, RemoveChild sevenNodes 0 (some 1) = some (h1, some 0) ∧ GetParent h1 1 = none ∧
      (GetChildren h1 0).length + 1 = (GetChildren sevenNodes 0).length :=
  ⟨by decide,
    (RemoveChild_parent_and_length sevenNodes 0 1).elim
      (fun h1 hh => ⟨h1, hh.1, hh.2.1, hh.2.2.2 (by decide)⟩)⟩

/-- C3: `RemoveChild` leaves an occurrence of the removed node behind when the
node occurs more than once.  Node `0` has the children `[1, 2, 1]`; after
`RemoveChild(1)` the children are `[1, 2]`, so node `1` still occurs among them
(while its parent has been cleared). -/
theorem RemoveChild_leaves_duplicate :
    GetChildren repeatedChild 0 = [some 1, some 2, some 1] ∧
    (RemoveChild repeatedChild 0 (some 1)).map (fun r => (GetChildren r.1 0, GetParent r.1 1))
      = some ([some 1, some 2], none) := by
  decide

/-- C10: `n.AddChild(c)` returns `n`; afterwards the parent of `c` is `n` and the
children of `n` are the previous children, in their order, followed by `c`. -/
theorem AddChild_appends (h : Heap V) (n c : NodeId) :
    ∃ h1, AddChild h n (some c) = some (h1, some n) ∧
      GetParent h1 c = some n ∧
      GetChildren h1 n = GetChildren h n ++ [some c] := by
  obtain ⟨h1, e, hch, hpa, -⟩ := AddChild_some h n c
  exact ⟨h1, e, by simp only [GetParent, hpa, if_true], by simp only [GetChildren, hch, if_true]⟩

/-- C4 (as stated, refuted): in the seven node tree the root has the children
`[a, b, c] = [1, 2, 3]`; `a.GetSiblings()` is `[c, b] = [3, 2]`, not the other
children in their relative order `[b, c]`. -/
theorem GetSiblings_order_counterexample :
    GetParent sevenNodes 1 = some 0 ∧ GetChildren sevenNodes 0 = [some 1, some 2, some 3] ∧
    (GetSiblings sevenNodes 1).map (fun r => r.1) = some [some 3, some 2] := by
  decide

/-- C4 (amended): for a node `x` with parent `p` that occurs at most once among
the children of `p`, `x.GetSiblings()` returns a sequence that holds every entry
other than `x` as often as the children of `p` do and does not hold `x`.  It is
the children sequence itself when `x` is not among them; when `x` stands at
index `i` it is the children sequence with the last child written into index
`i` and the length reduced by one, which is the children sequence without its
last entry, in the original order, when `x` is the last child. -/
theorem GetSiblings_swap_remove (h : Heap V) (x p : NodeId) (hp : GetParent h x = some p)
    (hx : List.count (some x) (GetChildren h p) ≤ 1) :
    ∃ r h1, GetSiblings h x = some (r, h1) ∧
      (∀ d, d ≠ some x → List.count d r = List.count d (GetChildren h p)) ∧
      some x ∉ r ∧
      (some x ∉ GetChildren h p → r = GetChildren h p) ∧
      (∀ i, i < (GetChildren h p).length → (GetChildren h p).getD i none = some x →
        r = ((GetChildren h p).set i
              ((GetChildren h p).getD ((GetChildren h p).length - 1) none)).take
              ((GetChildren h p).length - 1)) ∧
      (∀ l0, GetChildren h p = l0 ++ [some x] → r = l0) := by
  obtain ⟨s, hs⟩ : ∃ s, s = GetChildren h p := ⟨_, rfl⟩
  rw [← hs] at hx ⊢
  obtain ⟨arr, len, e, -, -, -, hcnt, hsum⟩ := removeRange_spec x s
  have hat : ∀ i, i < s.length → s.getD i none = some x →
      arr.take len = (s.set i (s.getD (s.length - 1) none)).take (s.length - 1) ∧
      len = s.length - 1 := by
    intro i hil hi
    have e2 := removeRange_at x s hx i hil hi
    rw [e] at e2
    injection e2 with e2
    injection e2 with ea el
    rw [ea, el, take_set_set]
    exact ⟨rfl, rfl⟩
  have habs : some x ∉ s → arr.take len = s := by
    intro hc
    have e2 := removeRange_absent (some x) s hc
    rw [e] at e2
    injection e2 with e2
    injection e2 with ea el
    rw [ea, el, List.take_length]
  refine ⟨arr.take len, h.store p { h p with children := arr }, ?_, hcnt, ?_, habs, ?_, ?_⟩
  · simp only [GetSiblings, hp, ← hs, e]
  · by_cases hc : some x ∈ s
    · obtain ⟨i, hil, hi⟩ := List.getElem_of_mem hc
      have hi2 : s.getD i none = some x := by simp [List.getElem?_eq_getElem hil, hi]
      have hl := (hat i hil hi2).2
      have hpos : 0 < List.count (some x) s := List.count_pos_iff.mpr hc
      intro hmem
      have := List.count_pos_iff.mpr hmem
      omega
    · rw [habs hc]; exact hc
  · intro i hil hi
    exact (hat i hil hi).1
  · intro l0 hl0
    have hi : s.getD l0.length none = some x := by simp [hl0]
    rw [(hat l0.length (by simp [hl0]) hi).1, hl0]
    simp [List.set_take]

/-- Witness for C4 (amended): `c.GetSiblings()` for the last child `c = 3` of the
root of the seven node tree is `[a, b]`. -/
theorem GetSiblings_swap_remove_witness :
    GetParent sevenNodes 3 = some 0 ∧ List.count (some 3) (GetChildren sevenNodes 0) ≤ 1 ∧
    ∃ r h1, GetSiblings sevenNodes 3 = some (r, h1) ∧ r = [some 1, some 2] :=
  ⟨by decide, by decide,
    (GetSiblings_swap_remove sevenNodes 3 0 (by decide) (by decide)).elim
      (fun r hr => hr.elim (fun h1 hh =>
        ⟨r, h1, hh.1, hh.2.2.2.2.2 [some 1, some 2] (by decide)⟩))⟩

/-- C5: parent/child consistency is preserved by every mutation operation:
when every node whose parent is `p` occurs among the children of `p`, the same
holds in the heap reached by `AddChild`, `RemoveChild`, `RemoveAllChildren` or
`SetChildren`, whatever the receiver and the arguments. -/
theorem Mutation_preserves_Consistent (h h1 : Heap V) (op : Mutation) (r : NodeIFace)
    (hinv : Consistent h) (hrun : op.run h = some (h1, r)) : Consistent h1 := by
  cases op with
  | addChild n c =>
    cases c with
    | none => simp [Mutation.run, AddChild] at hrun
    | some m =>
      obtain ⟨h2, e, hch, hpa, -⟩ := AddChild_some h n m
      simp only [Mutation.run, e, Option.some.injEq, Prod.mk.injEq] at hrun
      obtain ⟨rfl, -⟩ := hrun
      intro x q hxq
      simp only [GetParent, hpa] at hxq
      simp only [GetChildren, hch]
      by_cases hxm : x = m
      · rw [if_pos hxm] at hxq
        injection hxq with hxq
        subst hxq hxm
        simp
      · rw [if_neg hxm] at hxq
        have := hinv x q hxq
        split
        · exact List.mem_append_left _ this
        · exact this
  | removeChild n c =>
    cases c with
    | none =>
      simp only [Mutation.run, RemoveChild] at hrun
      split at hrun <;> simp at hrun
    | some m =>
      obtain ⟨h2, arr, len, e, hr, hch, hpa, -⟩ := RemoveChild_spec h n m
      obtain ⟨arr2, len2, e2, -, -, -, hcnt, -⟩ := removeRange_spec m (h n).children
      rw [e] at e2
      simp only [Option.some.injEq, Prod.mk.injEq] at e2
      obtain ⟨rfl, rfl⟩ := e2
      simp only [Mutation.run, hr, Option.some.injEq, Prod.mk.injEq] at hrun
      obtain ⟨rfl, -⟩ := hrun
      intro x q hxq
      simp only [GetParent, hpa] at hxq
      simp only [GetChildren, hch]
      by_cases hxm : x = m
      · rw [if_pos hxm] at hxq; cases hxq
      · rw [if_neg hxm] at hxq
        have hmem := hinv x q hxq
        split
        · rename_i hqn
          subst hqn
          apply List.count_pos_iff.mp
          rw [hcnt (some x) (fun hx => hxm (Option.some.inj hx))]
          exact List.count_pos_iff.mpr hmem
        · exact hmem
  | removeAllChildren n =>
    by_cases hcs : none ∈ GetChildren h n
    · have := clearParents_none (GetChildren h n) h hcs
      simp only [Mutation.run, RemoveAllChildren] at hrun
      unfold GetChildren at this
      rw [this] at hrun
      cases hrun
    · obtain ⟨h2, e, hch, hpa, -⟩ := RemoveAllChildren_spec h n hcs
      simp only [Mutation.run, e, Option.some.injEq, Prod.mk.injEq] at hrun
      obtain ⟨rfl, -⟩ := hrun
      intro x q hxq
      simp only [GetParent, hpa] at hxq
      simp only [GetChildren, hch]
      by_cases hxc : some x ∈ GetChildren h n
      · rw [if_pos hxc] at hxq; cases hxq
      · rw [if_neg hxc] at hxq
        have hmem := hinv x q hxq
        split
        · rename_i hqn
          subst hqn
          exact absurd hmem hxc
        · exact hmem
  | setChildren n cs =>
    by_cases hold : none ∈ GetChildren h n
    · have := clearParents_none (GetChildren h n) h hold
      simp only [Mutation.run, SetChildren, this] at hrun
      cases hrun
    by_cases hcs : none ∈ cs
    · obtain ⟨h0, e0, -⟩ := clearParents_spec (GetChildren h n) h hold
      have := addChildren_none cs h0 n hcs
      simp only [Mutation.run, SetChildren, e0, this] at hrun
      cases hrun
    obtain ⟨h2, e, hch, hpa, -⟩ := SetChildren_spec h n cs hold hcs
    simp only [Mutation.run, e, Option.some.injEq, Prod.mk.injEq] at hrun
    obtain ⟨rfl, -⟩ := hrun
    intro x q hxq
    simp only [GetParent, hpa] at hxq
    simp only [GetChildren, hch]
    by_cases hxc : some x ∈ cs
    · rw [if_pos hxc] at hxq
      injection hxq with hxq
      subst hxq
      simp [hxc]
    · rw [if_neg hxc] at hxq
      by_cases hxo : some x ∈ GetChildren h n
      · rw [if_pos hxo] at hxq; cases hxq
      · rw [if_neg hxo] at hxq
        have hmem := hinv x q hxq
        split
        · exact List.mem_append_left _ hmem
        · exact hmem

/-- Witness for C5: the heap of fresh nodes is consistent, and so is the heap
after `AddChild` of node `1` to node `0`. -/
theorem Mutation_preserves_Consistent_witness :
    Consistent fresh ∧ (Mutation.addChild 0 (some 1)).run fresh = some (oneChild, some 0) ∧
    Consistent oneChild :=
  have hf : Consistent fresh := fun x p hxp => by simp [GetParent, fresh] at hxp
  ⟨hf, rfl, Mutation_preserves_Consistent fresh oneChild (.addChild 0 (some 1)) (some 0) hf rfl⟩

/-! ## Visitors: the traversal loop -/

theorem appendVisits_eq_some (accept : NodeIFace → Option (List NodeIFace))
    (cs nodes r : List NodeIFace) :
    appendVisits accept cs nodes = some r ↔
      ∃ rs, List.Forall₂ (fun c rc => accept c = some rc) cs rs ∧ r = nodes ++ rs.flatten := by
  induction cs generalizing nodes with
  | nil =>
    constructor
    · intro hr
      simp only [appendVisits, Option.some.injEq] at hr
      exact ⟨[], List.Forall₂.nil, by simp [hr]⟩
    · rintro ⟨rs, hF, rfl⟩
      cases hF
      simp [appendVisits]
  | cons c cs ih =>
    constructor
    · intro hr
      simp only [appendVisits] at hr
      split at hr
      · cases hr
      · rename_i v hv
        obtain ⟨rs, hF, rfl⟩ := (ih _).mp hr
        exact ⟨v :: rs, List.Forall₂.cons hv hF, by simp⟩
    · rintro ⟨rs, hF, rfl⟩
      cases hF with
      | cons hv hF =>
        simp only [appendVisits, hv]
        exact (ih _).mpr ⟨_, hF, by simp⟩

theorem forall2_exists_of_mem_left {α β : Type} {R : α → β → Prop} {l1 : List α} {l2 : List β}
    (hF : List.Forall₂ R l1 l2) {a : α} (ha : a ∈ l1) : ∃ b, b ∈ l2 ∧ R a b := by
  induction hF with
  | nil => simp at ha
  | cons hab _ ih =>
    rcases List.mem_cons.mp ha with rfl | ha
    · exact ⟨_, List.mem_cons_self _ _, hab⟩
    · obtain ⟨b, hb, hR⟩ := ih ha
      exact ⟨b, List.mem_cons_of_mem _ hb, hR⟩

theorem forall2_exists_of_mem_right {α β : Type} {R : α → β → Prop} {l1 : List α} {l2 : List β}
    (hF : List.Forall₂ R l1 l2) {b : β} (hb : b ∈ l2) : ∃ a, a ∈ l1 ∧ R a b := by
  induction hF with
  | nil => simp at hb
  | cons hab _ ih =>
    rcases List.mem_cons.mp hb with rfl | hb
    · exact ⟨_, List.mem_cons_self _ _, hab⟩
    · obtain ⟨a, ha, hR⟩ := ih hb
      exact ⟨a, List.mem_cons_of_mem _ ha, hR⟩

theorem forall2_of_forall_exists {α β : Type} {R : α → β → Prop} (l1 : List α)
    (H : ∀ a ∈ l1, ∃ b, R a b) : ∃ l2, List.Forall₂ R l1 l2 := by
  induction l1 with
  | nil => exact ⟨[], List.Forall₂.nil⟩
  | cons a l ih =>
    obtain ⟨b, hb⟩ := H a (List.mem_cons_self _ _)
    obtain ⟨l2, h2⟩ := ih (fun x hx => H x (List.mem_cons_of_mem _ hx))
    exact ⟨b :: l2, List.Forall₂.cons hb h2⟩

theorem acyclicWithin_succ (h : Heap V) (k : Nat) (n : NodeId) :
    acyclicWithin h (k + 1) n = true ↔
      ∀ c ∈ GetChildren h n, ∃ m, c = some m ∧ acyclicWithin h k m = true := by
  simp only [acyclicWithin, List.all_eq_true]
  constructor
  · intro H c hc
    have := H c hc
    cases c with
    | none => simp at this
    | some m => exact ⟨m, rfl, this⟩
  · intro H c hc
    obtain ⟨m, rfl, hm⟩ := H c hc
    exact hm

theorem acyclicWithin_mono (h : Heap V) (k : Nat) (n : NodeId)
    (hk : acyclicWithin h k n = true) : acyclicWithin h (k + 1) n = true := by
  induction k generalizing n with
  | zero => simp [acyclicWithin] at hk
  | succ k ih =>
    rw [acyclicWithin_succ] at hk ⊢
    intro c hc
    obtain ⟨m, rfl, hm⟩ := hk c hc
    exact ⟨m, rfl, ih m hm⟩

theorem PreOrderVisit_succ (h : Heap V) (fuel : Nat) (n : NodeId) (r : List NodeIFace) :
    PreOrderVisit h (fuel + 1) (some n) = some r ↔
      ∃ rs, List.Forall₂ (fun c rc => Accept (PreOrderVisit h fuel) c = some rc)
        (GetChildren h n) rs ∧ r = some n :: rs.flatten := by
  simp only [PreOrderVisit, appendVisits_eq_some, List.singleton_append]

theorem PostOrderVisit_succ (h : Heap V) (fuel : Nat) (n : NodeId) (r : List NodeIFace) :
    PostOrderVisit h (fuel + 1) (some n) = some r ↔
      ∃ rs, List.Forall₂ (fun c rc => Accept (PostOrderVisit h fuel) c = some rc)
        (GetChildren h n) rs ∧ r = rs.flatten ++ [some n] := by
  simp only [PostOrderVisit]
  constructor
  · intro hr
    split at hr
    · cases hr
    · rename_i nodes hn
      obtain ⟨rs, hF, rfl⟩ := (appendVisits_eq_some _ _ _ _).mp hn
      injection hr with hr
      exact ⟨rs, hF, by simp [← hr]⟩
  · rintro ⟨rs, hF, rfl⟩
    have := (appendVisits_eq_some (Accept (PostOrderVisit h fuel)) (GetChildren h n) [] _).mpr
      ⟨rs, hF, rfl⟩
    rw [this]
    simp

theorem Accept_some {R : Type} (visit : NodeIFace → Option R) (c : NodeIFace) (r : R)
    (hc : Accept visit c = some r) : ∃ m, c = some m ∧ visit (some m) = some r := by
  cases c with
  | none => simp [Accept] at hc
  | some m => exact ⟨m, rfl, hc⟩

/-- A traversal that recurses through `Accept` into every child returns on every
finite acyclic graph, for every fuel from the height bound on. -/
theorem visit_total (h : Heap V) (visit : Nat → NodeIFace → Option (List NodeIFace))
    (combine : NodeId → List (List NodeIFace) → List NodeIFace)
    (hstep : ∀ fuel n rs, List.Forall₂ (fun c rc => Accept (visit fuel) c = some rc)
        (GetChildren h n) rs → visit (fuel + 1) (some n) = some (combine n rs))
    (k : Nat) (n : NodeId) (hk : acyclicWithin h k n = true) :
    ∃ r, ∀ fuel, k ≤ fuel → visit fuel (some n) = some r := by
  induction k generalizing n with
  | zero => simp [acyclicWithin] at hk
  | succ k ih =>
    rw [acyclicWithin_succ] at hk
    have hex : ∀ c ∈ GetChildren h n, ∃ rc, ∀ fuel, k ≤ fuel → Accept (visit fuel) c = some rc := by
      intro c hc
      obtain ⟨m, rfl, hm⟩ := hk c hc
      exact ih m hm
    obtain ⟨rs, hrs⟩ := forall2_of_forall_exists _ hex
    refine ⟨combine n rs, ?_⟩
    intro fuel hfuel
    obtain ⟨f, rfl⟩ : ∃ f, fuel = f + 1 := ⟨fuel - 1, by omega⟩
    apply hstep
    exact hrs.imp (fun c rc H => H f (by omega))

theorem flatten_eq_append_cons {α : Type} (L : List (List α)) (a b : List α) (x : α)
    (hL : L.flatten = a ++ x :: b) :
    ∃ L1 l L2 a1 b1, L = L1 ++ l :: L2 ∧ l = a1 ++ x :: b1 ∧ a = L1.flatten ++ a1 ∧
      b = b1 ++ L2.flatten := by
  induction L generalizing a with
  | nil => simp at hL
  | cons l0 L ih =>
    rw [List.flatten_cons, List.append_eq_append_iff] at hL
    rcases hL with ⟨a2, rfl, h2⟩ | ⟨c2, h1, h2⟩
    · obtain ⟨L1, l, L2, a1, b1, rfl, rfl, rfl, rfl⟩ := ih a2 h2
      exact ⟨l0 :: L1, _, L2, a1, b1, by simp, rfl, by simp, rfl⟩
    · cases c2 with
      | nil =>
        simp only [List.nil_append, List.append_nil] at h1 h2
        obtain ⟨L1, l, L2, a1, b1, rfl, rfl, h3, rfl⟩ := ih [] h2.symm
        exact ⟨l0 :: L1, _, L2, a1, b1, by simp, rfl, by simp [h1, ← h3], rfl⟩
      | cons y c2 =>
        simp only [List.cons_append, List.cons.injEq] at h2
        obtain ⟨rfl, rfl⟩ := h2
        exact ⟨[], l0, L, a, c2, by simp, h1, by simp, rfl⟩

theorem PreOrderVisit_head (h : Heap V) (fuel : Nat) (n : NodeId) (r : List NodeIFace)
    (hr : PreOrderVisit h fuel (some n) = some r) : ∃ t, r = some n :: t := by
  cases fuel with
  | zero => simp [PreOrderVisit] at hr
  | succ f =>
    obtain ⟨rs, -, rfl⟩ := (PreOrderVisit_succ h f n r).mp hr
    exact ⟨_, rfl⟩

/-- Every occurrence of a node in a pre-order result starts the pre-order
result of that node. -/
theorem PreOrderVisit_block (h : Heap V) (fuel : Nat) (n : NodeId) (r : List NodeIFace)
    (hr : PreOrderVisit h fuel (some n) = some r) (pre post : List NodeIFace) (m : NodeId)
    (hsplit : r = pre ++ some m :: post) :
    ∃ f rm rest, PreOrderVisit h f (some m) = some rm ∧ some m :: post = rm ++ rest := by
  induction fuel generalizing n r pre post with
  | zero => simp [PreOrderVisit] at hr
  | succ f ih =>
    obtain ⟨rs, hF, rfl⟩ := (PreOrderVisit_succ h f n r).mp hr
    cases pre with
    | nil =>
      simp only [List.nil_append, List.cons.injEq, Option.some.injEq] at hsplit
      obtain ⟨rfl, rfl⟩ := hsplit
      exact ⟨f + 1, _, [], hr, by simp⟩
    | cons p pre =>
      simp only [List.cons_append, List.cons.injEq] at hsplit
      obtain ⟨-, hsplit⟩ := hsplit
      obtain ⟨L1, l, L2, a1, b1, rfl, rfl, rfl, rfl⟩ := flatten_eq_append_cons rs _ _ _ hsplit
      obtain ⟨c, -, hc⟩ := forall2_exists_of_mem_right hF (b := a1 ++ some m :: b1) (by simp)
      obtain ⟨c1, rfl, hc1⟩ := Accept_some _ _ _ hc
      obtain ⟨f1, rm, rest, hrm, hrest⟩ := ih c1 _ hc1 a1 b1 rfl
      exact ⟨f1, rm, rest ++ L2.flatten, hrm, by rw [← List.append_assoc, ← hrest]; simp⟩

/-- The pre-order result of a node holds every descendant of the node after
its first entry, the node itself. -/
theorem PreOrderVisit_descendant (h : Heap V) (m d : NodeId) (hd : Descendant h m d)
    (fuel : Nat) (r : List NodeIFace) (hr : PreOrderVisit h fuel (some m) = some r) :
    ∃ t, r = some m :: t ∧ some d ∈ t := by
  induction hd generalizing fuel r with
  | child hmem =>
    cases fuel with
    | zero => simp [PreOrderVisit] at hr
    | succ f =>
      obtain ⟨rs, hF, rfl⟩ := (PreOrderVisit_succ h f _ r).mp hr
      obtain ⟨rc, hrc, hc⟩ := forall2_exists_of_mem_left hF hmem
      obtain ⟨t, rfl⟩ := PreOrderVisit_head h f _ rc hc
      exact ⟨_, rfl, List.mem_flatten.mpr ⟨_, hrc, List.mem_cons_self _ _⟩⟩
  | step hmem _ ih =>
    cases fuel with
    | zero => simp [PreOrderVisit] at hr
    | succ f =>
      obtain ⟨rs, hF, rfl⟩ := (PreOrderVisit_succ h f _ r).mp hr
      obtain ⟨rc, hrc, hc⟩ := forall2_exists_of_mem_left hF hmem
      obtain ⟨t, rfl, ht⟩ := ih f rc hc
      exact ⟨_, rfl, List.mem_flatten.mpr ⟨_, hrc, List.mem_cons_of_mem _ ht⟩⟩

theorem PreOrderVisit_after (h : Heap V) (fuel : Nat) (n : NodeId) (r : List NodeIFace)
    (hr : PreOrderVisit h fuel (some n) = some r) (m d : NodeId) (pre post : List NodeIFace)
    (hsplit : r = pre ++ some m :: post) (hd : Descendant h m d) : some d ∈ post := by
  obtain ⟨f, rm, rest, hrm, hrest⟩ := PreOrderVisit_block h fuel n r hr pre post m hsplit
  obtain ⟨t, rfl, ht⟩ := PreOrderVisit_descendant h m d hd f rm hrm
  simp only [List.cons_append, List.cons.injEq, true_and] at hrest
  rw [hrest]
  exact List.mem_append_left _ ht

theorem PostOrderVisit_last (h : Heap V) (fuel : Nat) (n : NodeId) (r : List NodeIFace)
    (hr : PostOrderVisit h fuel (some n) = some r) : ∃ t, r = t ++ [some n] := by
  cases fuel with
  | zero => simp [PostOrderVisit] at hr
  | succ f =>
    obtain ⟨rs, -, rfl⟩ := (PostOrderVisit_succ h f n r).mp hr
    exact ⟨_, rfl⟩

/-- Every occurrence of a node in a post-order result ends the post-order
result of that node. -/
theorem PostOrderVisit_block (h : Heap V) (fuel : Nat) (n : NodeId) (r : List NodeIFace)
    (hr : PostOrderVisit h fuel (some n) = some r) (pre post : List NodeIFace) (m : NodeId)
    (hsplit : r = pre ++ some m :: post) :
    ∃ f rm rest, PostOrderVisit h f (some m) = some rm ∧ pre ++ [some m] = rest ++ rm := by
  induction fuel generalizing n r pre post with
  | zero => simp [PostOrderVisit] at hr
  | succ f ih =>
    obtain ⟨rs, hF, rfl⟩ := (PostOrderVisit_succ h f n r).mp hr
    rcases List.eq_nil_or_concat post with rfl | ⟨post1, x, rfl⟩
    · have h1 : rs.flatten ++ [some n] = pre ++ [some m] := hsplit
      obtain ⟨h2, h3⟩ := List.append_inj' h1 rfl
      simp only [List.cons.injEq, Option.some.injEq, and_true] at h3
      subst h3
      refine ⟨f + 1, _, [], hr, ?_⟩
      rw [← h1]; simp
    · have h1 : rs.flatten ++ [some n] = (pre ++ some m :: post1) ++ [x] := by
        rw [hsplit]; simp
      obtain ⟨h2, -⟩ := List.append_inj' h1 rfl
      obtain ⟨L1, l, L2, a1, b1, rfl, rfl, rfl, rfl⟩ := flatten_eq_append_cons rs _ _ _ h2
      obtain ⟨c, -, hc⟩ := forall2_exists_of_mem_right hF (b := a1 ++ some m :: b1) (by simp)
      obtain ⟨c1, rfl, hc1⟩ := Accept_some _ _ _ hc
      obtain ⟨f1, rm, rest, hrm, hrest⟩ := ih c1 _ hc1 a1 b1 rfl
      exact ⟨f1, rm, L1.flatten ++ rest, hrm, by rw [List.append_assoc, hrest]; simp⟩

/-- The post-order result of a node holds every descendant of the node before
its last entry, the node itself. -/
theorem PostOrderVisit_descendant (h : Heap V) (m d : NodeId) (hd : Descendant h m d)
    (fuel : Nat) (r : List NodeIFace) (hr : PostOrderVisit h fuel (some m) = some r) :
    ∃ t, r = t ++ [some m] ∧ some d ∈ t := by
  induction hd generalizing fuel r with
  | child hmem =>
    cases fuel with
    | zero => simp [PostOrderVisit] at hr
    | succ f =>
      obtain ⟨rs, hF, rfl⟩ := (PostOrderVisit_succ h f _ r).mp hr
      obtain ⟨rc, hrc, hc⟩ := forall2_exists_of_mem_left hF hmem
      obtain ⟨t, rfl⟩ := PostOrderVisit_last h f _ rc hc
      exact ⟨_, rfl, List.mem_flatten.mpr ⟨_, hrc, by simp⟩⟩
  | step hmem _ ih =>
    cases fuel with
    | zero => simp [PostOrderVisit] at hr
    | succ f =>
      obtain ⟨rs, hF, rfl⟩ := (PostOrderVisit_succ h f _ r).mp hr
      obtain ⟨rc, hrc, hc⟩ := forall2_exists_of_mem_left hF hmem
      obtain ⟨t, rfl, ht⟩ := ih f rc hc
      exact ⟨_, rfl, List.mem_flatten.mpr ⟨_, hrc, List.mem_append_left _ ht⟩⟩

theorem PostOrderVisit_before (h : Heap V) (fuel : Nat) (n : NodeId) (r : List NodeIFace)
    (hr : PostOrderVisit h fuel (some n) = some r) (m d : NodeId) (pre post : List NodeIFace)
    (hsplit : r = pre ++ some m :: post) (hd : Descendant h m d) : some d ∈ pre := by
  obtain ⟨f, rm, rest, hrm, hrest⟩ := PostOrderVisit_block h fuel n r hr pre post m hsplit
  obtain ⟨t, rfl, ht⟩ := PostOrderVisit_descendant h m d hd f rm hrm
  rw [← List.append_assoc] at hrest
  obtain ⟨h2, -⟩ := List.append_inj' hrest rfl
  rw [h2]
  exact List.mem_append_right _ ht

/-! ## Visitors on trees: every node is visited once -/

theorem isTree_succ (h : Heap V) (k : Nat) (n : NodeId) :
    isTree h (k + 1) n = true ↔
      (GetChildren h n).Nodup ∧
      ∀ c ∈ GetChildren h n, ∃ m, c = some m ∧ GetParent h m = some n ∧ isTree h k m = true := by
  simp only [isTree, Bool.and_eq_true, decide_eq_true_eq, List.all_eq_true]
  constructor
  · rintro ⟨hnd, H⟩
    refine ⟨hnd, fun c hc => ?_⟩
    have := H c hc
    cases c with
    | none => simp at this
    | some m =>
      simp only [Bool.and_eq_true, decide_eq_true_eq] at this
      exact ⟨m, rfl, this.1, this.2⟩
  · rintro ⟨hnd, H⟩
    refine ⟨hnd, fun c hc => ?_⟩
    obtain ⟨m, rfl, hp, hm⟩ := H c hc
    simp [hp, hm]

theorem isTree_acyclicWithin (h : Heap V) (k : Nat) (n : NodeId) (hk : isTree h k n = true) :
    acyclicWithin h k n = true := by
  induction k generalizing n with
  | zero => simp [isTree] at hk
  | succ k ih =>
    rw [isTree_succ] at hk
    rw [acyclicWithin_succ]
    intro c hc
    obtain ⟨m, rfl, -, hm⟩ := hk.2 c hc
    exact ⟨m, rfl, ih m hm⟩

/-- Every node of a pre-order result other than the start node has its parent
in the result. -/
theorem PreOrderVisit_parent_mem (h : Heap V) (k : Nat) (c : NodeId) (hk : isTree h k c = true)
    (fuel : Nat) (r : List NodeIFace) (hr : PreOrderVisit h fuel (some c) = some r)
    (x : NodeId) (hx : some x ∈ r) :
    x = c ∨ ∃ y, GetParent h x = some y ∧ some y ∈ r := by
  induction k generalizing c fuel r with
  | zero => simp [isTree] at hk
  | succ k ih =>
    cases fuel with
    | zero => simp [PreOrderVisit] at hr
    | succ f =>
      obtain ⟨rs, hF, rfl⟩ := (PreOrderVisit_succ h f c r).mp hr
      rcases List.mem_cons.mp hx with hxc | hx
      · exact Or.inl (Option.some.inj hxc)
      · right
        obtain ⟨rc, hrc, hxrc⟩ := List.mem_flatten.mp hx
        obtain ⟨cc, hcc, hacc⟩ := forall2_exists_of_mem_right hF hrc
        obtain ⟨m, rfl, hpm, hm⟩ := ((isTree_succ h k c).mp hk).2 cc hcc
        rcases ih m hm f rc hacc hxrc with rfl | ⟨y, hy, hyr⟩
        · exact ⟨c, hpm, List.mem_cons_self _ _⟩
        · exact ⟨y, hy, List.mem_cons_of_mem _ (List.mem_flatten.mpr ⟨rc, hrc, hyr⟩)⟩

theorem PreOrderVisit_mem_acyclic (h : Heap V) (k : Nat) (c : NodeId)
    (hk : acyclicWithin h k c = true) (fuel : Nat) (r : List NodeIFace)
    (hr : PreOrderVisit h fuel (some c) = some r) (x : NodeId) (hx : some x ∈ r) :
    acyclicWithin h k x = true := by
  induction k generalizing c fuel r with
  | zero => simp [acyclicWithin] at hk
  | succ k ih =>
    cases fuel with
    | zero => simp [PreOrderVisit] at hr
    | succ f =>
      obtain ⟨rs, hF, rfl⟩ := (PreOrderVisit_succ h f c r).mp hr
      rcases List.mem_cons.mp hx with hxc | hx
      · rw [Option.some.inj hxc]; exact hk
      · obtain ⟨rc, hrc, hxrc⟩ := List.mem_flatten.mp hx
        obtain ⟨cc, hcc, hacc⟩ := forall2_exists_of_mem_right hF hrc
        obtain ⟨m, rfl, hm⟩ := ((acyclicWithin_succ h k c).mp hk) cc hcc
        exact acyclicWithin_mono h k x (ih m hm f rc hacc hxrc)

/-- A node does not occur in the pre-order result of one of its children. -/
theorem PreOrderVisit_not_mem_child (h : Heap V) (k : Nat) (n c : NodeId)
    (hk : acyclicWithin h k n = true) (hc : some c ∈ GetChildren h n)
    (fuel : Nat) (rc : List NodeIFace) (hr : PreOrderVisit h fuel (some c) = some rc) :
    some n ∉ rc := by
  induction k with
  | zero => simp [acyclicWithin] at hk
  | succ k ih =>
    intro hmem
    obtain ⟨m, hm, hkc⟩ := ((acyclicWithin_succ h k n).mp hk) (some c) hc
    cases hm
    exact ih (PreOrderVisit_mem_acyclic h k c hkc fuel rc hr n hmem) hmem

/-- The pre-order results of two trees, neither of which holds the root of the
other, have no node in common. -/
theorem PreOrderVisit_disjoint (h : Heap V) (k : Nat) (a b : NodeId)
    (ha : isTree h k a = true) (hb : isTree h k b = true)
    (fa fb : Nat) (ra rb : List NodeIFace)
    (hra : PreOrderVisit h fa (some a) = some ra) (hrb : PreOrderVisit h fb (some b) = some rb)
    (hab : some a ∉ rb) (hba : some b ∉ ra) : List.Disjoint ra rb := by
  induction k generalizing a b fa fb ra rb with
  | zero => simp [isTree] at ha
  | succ k ih =>
    cases fa with
    | zero => simp [PreOrderVisit] at hra
    | succ fa =>
    cases fb with
    | zero => simp [PreOrderVisit] at hrb
    | succ fb =>
      obtain ⟨rsa, hFa, hea⟩ := (PreOrderVisit_succ h fa a ra).mp hra
      obtain ⟨rsb, hFb, heb⟩ := (PreOrderVisit_succ h fb b rb).mp hrb
      intro x hxa hxb
      rw [hea] at hxa
      rw [heb] at hxb
      rcases List.mem_cons.mp hxa with rfl | hxa
      · exact hab (heb ▸ hxb)
      rcases List.mem_cons.mp hxb with rfl | hxb
      · exact hba (hea ▸ List.mem_cons_of_mem _ hxa)
      obtain ⟨rca, hrca, hxca⟩ := List.mem_flatten.mp hxa
      obtain ⟨rcb, hrcb, hxcb⟩ := List.mem_flatten.mp hxb
      obtain ⟨ca, hca, haca⟩ := forall2_exists_of_mem_right hFa hrca
      obtain ⟨cb, hcb, hacb⟩ := forall2_exists_of_mem_right hFb hrcb
      obtain ⟨ma, rfl, hpa, hta⟩ := ((isTree_succ h k a).mp ha).2 ca hca
      obtain ⟨mb, rfl, hpb, htb⟩ := ((isTree_succ h k b).mp hb).2 cb hcb
      have hbhead : some b ∈ rb := heb ▸ List.mem_cons_self _ _
      have hahead : some a ∈ ra := hea ▸ List.mem_cons_self _ _
      have hsuba : ∀ y, y ∈ rca → y ∈ ra := fun y hy =>
        hea ▸ List.mem_cons_of_mem _ (List.mem_flatten.mpr ⟨rca, hrca, hy⟩)
      have hsubb : ∀ y, y ∈ rcb → y ∈ rb := fun y hy =>
        heb ▸ List.mem_cons_of_mem _ (List.mem_flatten.mpr ⟨rcb, hrcb, hy⟩)
      have h1 : some ma ∉ rcb := by
        intro hmem
        rcases PreOrderVisit_parent_mem h k mb htb fb rcb hacb ma hmem with rfl | ⟨y, hy, hyr⟩
        · rw [hpa] at hpb
          cases hpb
          exact hab hbhead
        · rw [hpa] at hy
          cases hy
          exact hab (hsubb _ hyr)
      have h2 : some mb ∉ rca := by
        intro hmem
        rcases PreOrderVisit_parent_mem h k ma hta fa rca haca mb hmem with rfl | ⟨y, hy, hyr⟩
        · rw [hpa] at hpb
          cases hpb
          exact hab hbhead
        · rw [hpb] at hy
          cases hy
          exact hba (hsuba _ hyr)
      exact ih ma mb hta htb fa fb rca rcb haca hacb h1 h2 hxca hxcb

theorem forall2_pairwise {α β : Type} {R : α → β → Prop} {S : β → β → Prop}
    {l1 : List α} {l2 : List β} (hF : List.Forall₂ R l1 l2) (hp : l1.Pairwise (fun a b => a ≠ b))
    (H : ∀ a a1 b b1, a ∈ l1 → a1 ∈ l1 → a ≠ a1 → R a b → R a1 b1 → S b b1) :
    l2.Pairwise S := by
  induction hF with
  | nil => exact List.Pairwise.nil
  | @cons a b l1 l2 hab hF ih =>
    rw [List.pairwise_cons] at hp ⊢
    refine ⟨?_, ih hp.2 (fun x x1 y y1 hx hx1 => H x x1 y y1 (List.mem_cons_of_mem _ hx)
      (List.mem_cons_of_mem _ hx1))⟩
    intro b1 hb1
    obtain ⟨a1, ha1, hR⟩ := forall2_exists_of_mem_right hF hb1
    exact H a a1 b b1 (List.mem_cons_self _ _) (List.mem_cons_of_mem _ ha1) (hp.1 a1 ha1) hab hR

/-- On a tree the pre-order result holds no node twice. -/
theorem PreOrderVisit_nodup (h : Heap V) (k : Nat) (n : NodeId) (hk : isTree h k n = true)
    (fuel : Nat) (r : List NodeIFace) (hr : PreOrderVisit h fuel (some n) = some r) :
    r.Nodup := by
  induction k generalizing n fuel r with
  | zero => simp [isTree] at hk
  | succ k ih =>
    cases fuel with
    | zero => simp [PreOrderVisit] at hr
    | succ f =>
      obtain ⟨rs, hF, rfl⟩ := (PreOrderVisit_succ h f n r).mp hr
      have hac := isTree_acyclicWithin h (k + 1) n hk
      obtain ⟨hnd, hch⟩ := (isTree_succ h k n).mp hk
      rw [List.nodup_cons]
      constructor
      · intro hmem
        obtain ⟨rc, hrc, hxrc⟩ := List.mem_flatten.mp hmem
        obtain ⟨cc, hcc, hacc⟩ := forall2_exists_of_mem_right hF hrc
        obtain ⟨m, rfl, -, -⟩ := hch cc hcc
        exact PreOrderVisit_not_mem_child h (k + 1) n m hac hcc f rc hacc hxrc
      · rw [List.nodup_flatten]
        constructor
        · intro rc hrc
          obtain ⟨cc, hcc, hacc⟩ := forall2_exists_of_mem_right hF hrc
          obtain ⟨m, rfl, -, hm⟩ := hch cc hcc
          exact ih m hm f rc hacc
        · apply forall2_pairwise hF hnd
          intro c c1 rc rc1 hc hc1 hne hR hR1
          obtain ⟨m, rfl, hpm, hm⟩ := hch c hc
          obtain ⟨m1, rfl, hpm1, hm1⟩ := hch c1 hc1
          have hdiff : m ≠ m1 := fun e => hne (by rw [e])
          apply PreOrderVisit_disjoint h k m m1 hm hm1 f f rc rc1 hR hR1
          · intro hmem
            rcases PreOrderVisit_parent_mem h k m1 hm1 f rc1 hR1 m hmem with e | ⟨y, hy, hyr⟩
            · exact hdiff e
            · rw [hpm] at hy
              cases hy
              exact PreOrderVisit_not_mem_child h (k + 1) n m1 hac hc1 f rc1 hR1 hyr
          · intro hmem
            rcases PreOrderVisit_parent_mem h k m hm f rc hR m1 hmem with e | ⟨y, hy, hyr⟩
            · exact hdiff e.symm
            · rw [hpm1] at hy
              cases hy
              exact PreOrderVisit_not_mem_child h (k + 1) n m hac hc f rc hR hyr

/-! ## Positions in a result without repetitions -/

theorem index_lt_of_after {α : Type} (r : List α) (hnd : r.Nodup) (x y : α)
    (H : ∀ pre post, r = pre ++ x :: post → y ∈ post) (i j : Nat)
    (hi : r[i]? = some x) (hj : r[j]? = some y) : i < j := by
  induction r generalizing i j with
  | nil => simp at hi
  | cons a t ih =>
    rw [List.nodup_cons] at hnd
    cases i with
    | zero =>
      simp only [List.getElem?_cons_zero, Option.some.injEq] at hi
      subst hi
      cases j with
      | zero =>
        simp only [List.getElem?_cons_zero, Option.some.injEq] at hj
        subst hj
        exact absurd (H [] t rfl) hnd.1
      | succ j => omega
    | succ i =>
      simp only [List.getElem?_cons_succ] at hi
      have H1 : ∀ pre post, t = pre ++ x :: post → y ∈ post := fun pre post e =>
        H (a :: pre) post (by rw [e]; rfl)
      cases j with
      | zero =>
        simp only [List.getElem?_cons_zero, Option.some.injEq] at hj
        subst hj
        obtain ⟨pre, post, e⟩ := List.append_of_mem (List.getElem?_mem hi)
        have := H1 pre post e
        exact absurd (e ▸ List.mem_append_right _ (List.mem_cons_of_mem _ this)) hnd.1
      | succ j =>
        simp only [List.getElem?_cons_succ] at hj
        have := ih hnd.2 H1 i j hi hj
        omega

theorem index_lt_of_before {α : Type} (r : List α) (hnd : r.Nodup) (x y : α)
    (H : ∀ pre post, r = pre ++ x :: post → y ∈ pre) (i j : Nat)
    (hi : r[i]? = some x) (hj : r[j]? = some y) : j < i := by
  induction r generalizing i j with
  | nil => simp at hi
  | cons a t ih =>
    rw [List.nodup_cons] at hnd
    cases i with
    | zero =>
      simp only [List.getElem?_cons_zero, Option.some.injEq] at hi
      subst hi
      simpa using H [] t rfl
    | succ i =>
      simp only [List.getElem?_cons_succ] at hi
      cases j with
      | zero => omega
      | succ j =>
        simp only [List.getElem?_cons_succ] at hj
        have H1 : ∀ pre post, t = pre ++ x :: post → y ∈ pre := by
          intro pre post e
          rcases List.mem_cons.mp (H (a :: pre) post (by rw [e]; rfl)) with hy | hy
          · exact absurd (hy ▸ List.getElem?_mem hj) hnd.1
          · exact hy
        have := ih hnd.2 H1 i j hi hj
        omega

/-! ## Post-order, filter and leaf results against the pre-order result -/

theorem forall2_post_pre (h : Heap V) (f : Nat)
    (ih : ∀ (n : NodeIFace) (r : List NodeIFace), PostOrderVisit h f n = some r →
      ∃ r1, PreOrderVisit h f n = some r1 ∧ r.Perm r1)
    (cs : List NodeIFace) (rs : List (List NodeIFace))
    (hF : List.Forall₂ (fun c rc => Accept (PostOrderVisit h f) c = some rc) cs rs) :
    ∃ rs1, List.Forall₂ (fun c rc => Accept (PreOrderVisit h f) c = some rc) cs rs1 ∧
      List.Forall₂ List.Perm rs rs1 := by
  induction hF with
  | nil => exact ⟨[], List.Forall₂.nil, List.Forall₂.nil⟩
  | @cons c rc cs rs hc _ ih2 =>
    obtain ⟨m, rfl, hm⟩ := Accept_some _ _ _ hc
    obtain ⟨r1, hr1, hp1⟩ := ih (some m) rc hm
    obtain ⟨rs1, hF1, hP1⟩ := ih2
    exact ⟨r1 :: rs1, List.Forall₂.cons hr1 hF1, List.Forall₂.cons hp1 hP1⟩

/-- The post-order result is a rearrangement of the pre-order result. -/
theorem PostOrderVisit_perm (h : Heap V) (fuel : Nat) (n : NodeIFace) (r : List NodeIFace)
    (hr : PostOrderVisit h fuel n = some r) :
    ∃ r1, PreOrderVisit h fuel n = some r1 ∧ r.Perm r1 := by
  induction fuel generalizing n r with
  | zero => simp [PostOrderVisit] at hr
  | succ f ih =>
    cases n with
    | none => simp [PostOrderVisit] at hr
    | some n =>
      obtain ⟨rs, hF, rfl⟩ := (PostOrderVisit_succ h f n r).mp hr
      obtain ⟨rs1, hF1, hP1⟩ := forall2_post_pre h f ih _ _ hF
      refine ⟨some n :: rs1.flatten, (PreOrderVisit_succ h f n _).mpr ⟨rs1, hF1, rfl⟩, ?_⟩
      exact List.perm_append_singleton _ _ |>.trans (List.Perm.cons _ (List.Perm.flatten_congr hP1))

theorem appendVisits_map_filter (p : FilterFunc)
    (acc1 acc2 : NodeIFace → Option (List NodeIFace))
    (hacc : ∀ c, acc1 c = (acc2 c).map (List.filter p)) (cs nodes : List NodeIFace) :
    appendVisits acc1 cs (nodes.filter p) = (appendVisits acc2 cs nodes).map (List.filter p) := by
  induction cs generalizing nodes with
  | nil => rfl
  | cons c cs ih =>
    simp only [appendVisits, hacc c]
    cases acc2 c with
    | none => rfl
    | some v =>
      simp only [Option.map_some']
      rw [← List.filter_append]
      exact ih _

/-- The filter visitor returns, at every fuel and on every node, the pre-order
result restricted to the nodes the filter accepts. -/
theorem FilterVisit_eq_map (h : Heap V) (p : FilterFunc) (fuel : Nat) (n : NodeIFace) :
    FilterVisit h p fuel n = (PreOrderVisit h fuel n).map (List.filter p) := by
  induction fuel generalizing n with
  | zero => rfl
  | succ f ih =>
    cases n with
    | none => rfl
    | some n =>
      simp only [FilterVisit, PreOrderVisit]
      rw [← appendVisits_map_filter p (Accept (FilterVisit h p f)) (Accept (PreOrderVisit h f))]
      · congr 1
        simp only [List.filter_cons, List.filter_nil]
      · intro c
        cases c with
        | none => rfl
        | some m => exact ih (some m)

/-- The leaf visitor returns, at every fuel and on every node, the pre-order
result restricted to the leaves. -/
theorem LeafVisit_eq_map (h : Heap V) (fuel : Nat) (n : NodeIFace) :
    LeafVisit h fuel n = (PreOrderVisit h fuel n).map (List.filter (leafFilter h)) := by
  induction fuel generalizing n with
  | zero => rfl
  | succ f ih =>
    cases n with
    | none => rfl
    | some n =>
      simp only [LeafVisit, PreOrderVisit]
      by_cases hl : IsLeaf h n = true
      · have hnil : GetChildren h n = [] := by
          simp only [IsLeaf, decide_eq_true_eq] at hl
          exact List.length_eq_zero.mp hl
        simp [hl, hnil, appendVisits, leafFilter]
      · rw [if_neg hl]
        rw [← appendVisits_map_filter (leafFilter h) (Accept (LeafVisit h f))
          (Accept (PreOrderVisit h f))]
        · congr 1
          simp only [List.filter_cons, List.filter_nil, leafFilter, hl]
          rfl
        · intro c
          cases c with
          | none => rfl
          | some m => exact ih (some m)

/-- The nodes of a pre-order result are the start node and its descendants. -/
theorem PreOrderVisit_mem (h : Heap V) (fuel : Nat) (n : NodeId) (r : List NodeIFace)
    (hr : PreOrderVisit h fuel (some n) = some r) (x : NodeIFace) (hx : x ∈ r) :
    ∃ d, x = some d ∧ (d = n ∨ Descendant h n d) := by
  induction fuel generalizing n r with
  | zero => simp [PreOrderVisit] at hr
  | succ f ih =>
    obtain ⟨rs, hF, rfl⟩ := (PreOrderVisit_succ h f n r).mp hr
    rcases List.mem_cons.mp hx with rfl | hx
    · exact ⟨n, rfl, Or.inl rfl⟩
    · obtain ⟨rc, hrc, hxrc⟩ := List.mem_flatten.mp hx
      obtain ⟨cc, hcc, hacc⟩ := forall2_exists_of_mem_right hF hrc
      obtain ⟨m, rfl, hm⟩ := Accept_some _ _ _ hacc
      obtain ⟨d, rfl, hd⟩ := ih m rc hm hxrc
      refine ⟨d, rfl, Or.inr ?_⟩
      rcases hd with rfl | hd
      · exact Descendant.child hcc
      · exact Descendant.step hcc hd

theorem PreOrderVisit_returns (h : Heap V) (k : Nat) (n : NodeId)
    (hk : acyclicWithin h k n = true) :
    ∃ r, ∀ fuel, k ≤ fuel → PreOrderVisit h fuel (some n) = some r :=
  visit_total h (PreOrderVisit h) (fun n rs => some n :: rs.flatten)
    (fun fuel n rs hF => (PreOrderVisit_succ h fuel n _).mpr ⟨rs, hF, rfl⟩) k n hk

theorem PostOrderVisit_returns (h : Heap V) (k : Nat) (n : NodeId)
    (hk : acyclicWithin h k n = true) :
    ∃ r, ∀ fuel, k ≤ fuel → PostOrderVisit h fuel (some n) = some r :=
  visit_total h (PostOrderVisit h) (fun n rs => rs.flatten ++ [some n])
    (fun fuel n rs hF => (PostOrderVisit_succ h fuel n _).mpr ⟨rs, hF, rfl⟩) k n hk

/-! ## Visitors: the claims -/

/-- C6: on a finite acyclic graph of child links below `n`, `n.Accept` of the
pre-order visitor returns `n` followed by the concatenation, in child order, of
the results the children return.  Every occurrence of a node in the result is
followed by all descendants of that node; on a tree the result holds no node
twice and every node stands at a smaller index than each of its descendants. -/
theorem PreOrder_self_then_children (h : Heap V) (k : Nat) (n : NodeId)
    (hk : acyclicWithin h k n = true) :
    ∃ rs, List.Forall₂ (fun c rc => Returns (fun fuel => Accept (PreOrderVisit h fuel) c) rc)
        (GetChildren h n) rs ∧
      Returns (fun fuel => Accept (PreOrderVisit h fuel) (some n)) (some n :: rs.flatten) ∧
      (∀ m d pre post, some n :: rs.flatten = pre ++ some m :: post → Descendant h m d →
        some d ∈ post) ∧
      (isTree h k n = true → (some n :: rs.flatten).Nodup ∧
        ∀ (m d : NodeId) (i j : Nat), Descendant h m d → (some n :: rs.flatten)[i]? = some (some m) →
          (some n :: rs.flatten)[j]? = some (some d) → i < j) := by
  cases k with
  | zero => simp [acyclicWithin] at hk
  | succ k =>
    have hch := (acyclicWithin_succ h k n).mp hk
    have hex : ∀ c ∈ GetChildren h n,
        ∃ rc, ∀ fuel, k ≤ fuel → Accept (PreOrderVisit h fuel) c = some rc := by
      intro c hc
      obtain ⟨m, rfl, hm⟩ := hch c hc
      exact PreOrderVisit_returns h k m hm
    obtain ⟨rs, hrs⟩ := forall2_of_forall_exists _ hex
    have hself : ∀ fuel, k + 1 ≤ fuel →
        PreOrderVisit h fuel (some n) = some (some n :: rs.flatten) := by
      intro fuel hfuel
      obtain ⟨f, rfl⟩ : ∃ f, fuel = f + 1 := ⟨fuel - 1, by omega⟩
      exact (PreOrderVisit_succ h f n _).mpr ⟨rs, hrs.imp (fun c rc H => H f (by omega)), rfl⟩
    have hafter : ∀ m d pre post, some n :: rs.flatten = pre ++ some m :: post →
        Descendant h m d → some d ∈ post := fun m d pre post hs hd =>
      PreOrderVisit_after h (k + 1) n _ (hself (k + 1) (le_refl _)) m d pre post hs hd
    refine ⟨rs, hrs.imp (fun c rc H => ⟨k, H⟩), ⟨k + 1, hself⟩, hafter, ?_⟩
    intro ht
    have hnd := PreOrderVisit_nodup h (k + 1) n ht (k + 1) _ (hself (k + 1) (le_refl _))
    exact ⟨hnd, fun m d i j hd hi hj =>
      index_lt_of_after _ hnd (some m) (some d) (fun pre post e => hafter m d pre post e hd)
        i j hi hj⟩

/-- Witness for C6: the seven node tree `root{a{d,e}, b{f}, c}`, whose pre-order
result is `[root, a, d, e, b, f, c]`. -/
theorem PreOrder_self_then_children_witness :
    acyclicWithin sevenNodes 3 0 = true ∧ isTree sevenNodes 3 0 = true ∧
    Accept (PreOrderVisit sevenNodes 3) (some 0)
      = some [some 0, some 1, some 4, some 5, some 2, some 6, some 3] ∧
    ∃ rs, List.Forall₂
        (fun c rc => Returns (fun fuel => Accept (PreOrderVisit sevenNodes fuel) c) rc)
        (GetChildren sevenNodes 0) rs ∧
      Returns (fun fuel => Accept (PreOrderVisit sevenNodes fuel) (some 0))
        (some 0 :: rs.flatten) :=
  ⟨by decide, by decide, by decide,
    (PreOrder_self_then_children sevenNodes 3 0 (by decide)).elim
      (fun rs hh => ⟨rs, hh.1, hh.2.1⟩)⟩

/-- C7: on a finite acyclic graph of child links below `n`, `n.Accept` of the
post-order visitor returns the concatenation, in child order, of the results
the children return, followed by `n`.  Every occurrence of a node in the result
is preceded by all descendants of that node; on a tree the result holds no node
twice and every node stands at a larger index than each of its descendants. -/
theorem PostOrder_children_then_self (h : Heap V) (k : Nat) (n : NodeId)
    (hk : acyclicWithin h k n = true) :
    ∃ rs, List.Forall₂ (fun c rc => Returns (fun fuel => Accept (PostOrderVisit h fuel) c) rc)
        (GetChildren h n) rs ∧
      Returns (fun fuel => Accept (PostOrderVisit h fuel) (some n)) (rs.flatten ++ [some n]) ∧
      (∀ m d pre post, rs.flatten ++ [some n] = pre ++ some m :: post → Descendant h m d →
        some d ∈ pre) ∧
      (isTree h k n = true → (rs.flatten ++ [some n]).Nodup ∧
        ∀ (m d : NodeId) (i j : Nat), Descendant h m d → (rs.flatten ++ [some n])[i]? = some (some m) →
          (rs.flatten ++ [some n])[j]? = some (some d) → j < i) := by
  cases k with
  | zero => simp [acyclicWithin] at hk
  | succ k =>
    have hch := (acyclicWithin_succ h k n).mp hk
    have hex : ∀ c ∈ GetChildren h n,
        ∃ rc, ∀ fuel, k ≤ fuel → Accept (PostOrderVisit h fuel) c = some rc := by
      intro c hc
      obtain ⟨m, rfl, hm⟩ := hch c hc
      exact PostOrderVisit_returns h k m hm
    obtain ⟨rs, hrs⟩ := forall2_of_forall_exists _ hex
    have hself : ∀ fuel, k + 1 ≤ fuel →
        PostOrderVisit h fuel (some n) = some (rs.flatten ++ [some n]) := by
      intro fuel hfuel
      obtain ⟨f, rfl⟩ : ∃ f, fuel = f + 1 := ⟨fuel - 1, by omega⟩
      exact (PostOrderVisit_succ h f n _).mpr ⟨rs, hrs.imp (fun c rc H => H f (by omega)), rfl⟩
    have hbefore : ∀ m d pre post, rs.flatten ++ [some n] = pre ++ some m :: post →
        Descendant h m d → some d ∈ pre := fun m d pre post hs hd =>
      PostOrderVisit_before h (k + 1) n _ (hself (k + 1) (le_refl _)) m d pre post hs hd
    refine ⟨rs, hrs.imp (fun c rc H => ⟨k, H⟩), ⟨k + 1, hself⟩, hbefore, ?_⟩
    intro ht
    obtain ⟨r1, hr1, hperm⟩ := PostOrderVisit_perm h (k + 1) (some n) _ (hself (k + 1) (le_refl _))
    have hnd := hperm.nodup_iff.mpr (PreOrderVisit_nodup h (k + 1) n ht (k + 1) r1 hr1)
    exact ⟨hnd, fun m d i j hd hi hj =>
      index_lt_of_before _ hnd (some m) (some d) (fun pre post e => hbefore m d pre post e hd)
        i j hi hj⟩

/-- Witness for C7: the seven node tree `root{a{d,e}, b{f}, c}`, whose post-order
result is `[d, e, a, f, b, c, root]`. -/
theorem PostOrder_children_then_self_witness :
    acyclicWithin sevenNodes 3 0 = true ∧ isTree sevenNodes 3 0 = true ∧
    Accept (PostOrderVisit sevenNodes 3) (some 0)
      = some [some 4, some 5, some 1, some 6, some 2, some 3, some 0] ∧
    ∃ rs, List.Forall₂
        (fun c rc => Returns (fun fuel => Accept (PostOrderVisit sevenNodes fuel) c) rc)
        (GetChildren sevenNodes 0) rs ∧
      Returns (fun fuel => Accept (PostOrderVisit sevenNodes fuel) (some 0))
        (rs.flatten ++ [some 0]) :=
  ⟨by decide, by decide, by decide,
    (PostOrder_children_then_self sevenNodes 3 0 (by decide)).elim
      (fun rs hh => ⟨rs, hh.1, hh.2.1⟩)⟩

/-- C8: on a finite acyclic graph of child links below `n`, `n.Accept` of the
filter visitor returns the pre-order result restricted to the nodes on which
the filter holds, in pre-order.  A descendant on which the filter holds is in
the result whatever the filter says on the nodes above it, and with the filter
that always holds the result is the pre-order result. -/
theorem FilterVisit_filters_PreOrder (h : Heap V) (filter : FilterFunc) (k : Nat) (n : NodeId)
    (hk : acyclicWithin h k n = true) :
    ∃ r, Returns (fun fuel => Accept (PreOrderVisit h fuel) (some n)) r ∧
      Returns (fun fuel => Accept (FilterVisit h filter fuel) (some n)) (r.filter filter) ∧
      (∀ d, Descendant h n d → filter (some d) = true → some d ∈ r.filter filter) ∧
      Returns (fun fuel => Accept (FilterVisit h (fun _ => true) fuel) (some n)) r := by
  obtain ⟨r, hr⟩ := PreOrderVisit_returns h k n hk
  refine ⟨r, ⟨k, hr⟩, ⟨k, fun fuel hf => ?_⟩, ?_, ⟨k, fun fuel hf => ?_⟩⟩
  · show FilterVisit h filter fuel (some n) = _
    rw [FilterVisit_eq_map, hr fuel hf]; rfl
  · intro d hd hfd
    obtain ⟨t, rfl, ht⟩ := PreOrderVisit_descendant h n d hd k r (hr k (le_refl _))
    exact List.mem_filter.mpr ⟨List.mem_cons_of_mem _ ht, hfd⟩
  · show FilterVisit h (fun _ => true) fuel (some n) = _
    rw [FilterVisit_eq_map, hr fuel hf]
    simp

/-- Witness for C8: on the seven node tree, whose node values are the addresses
`0` to `6`, the filter `value > 3` returns `[d, e, f]`. -/
theorem FilterVisit_filters_PreOrder_witness :
    acyclicWithin sevenNodes 3 0 = true ∧
    Accept (FilterVisit sevenNodes
        (fun c => c.elim false (fun m => decide (3 < GetValue sevenNodes m))) 3) (some 0)
      = some [some 4, some 5, some 6] ∧
    ∃ r, Returns (fun fuel => Accept (PreOrderVisit sevenNodes fuel) (some 0)) r ∧
      Returns (fun fuel => Accept (FilterVisit sevenNodes
        (fun c => c.elim false (fun m => decide (3 < GetValue sevenNodes m))) fuel) (some 0))
        (r.filter (fun c => c.elim false (fun m => decide (3 < GetValue sevenNodes m)))) :=
  ⟨by decide, by decide,
    (FilterVisit_filters_PreOrder sevenNodes
      (fun c => c.elim false (fun m => decide (3 < GetValue sevenNodes m))) 3 0 (by decide)).elim
      (fun r hh => ⟨r, hh.1, hh.2.1⟩)⟩

/-- C9: on a finite acyclic graph of child links below `n`, `n.Accept` of the
leaf visitor returns the pre-order result restricted to the nodes for which
`IsLeaf` holds.  Its entries are exactly the leaves among `n` and its
descendants, it is `[n]` when `n` is a leaf, and on a tree it holds no leaf
twice. -/
theorem LeafVisit_collects_leaves (h : Heap V) (k : Nat) (n : NodeId)
    (hk : acyclicWithin h k n = true) :
    ∃ r, Returns (fun fuel => Accept (PreOrderVisit h fuel) (some n)) r ∧
      Returns (fun fuel => Accept (LeafVisit h fuel) (some n)) (r.filter (leafFilter h)) ∧
      (∀ x, x ∈ r.filter (leafFilter h) ↔
        ∃ d, x = some d ∧ (d = n ∨ Descendant h n d) ∧ IsLeaf h d = true) ∧
      (IsLeaf h n = true → r.filter (leafFilter h) = [some n]) ∧
      (isTree h k n = true → (r.filter (leafFilter h)).Nodup) := by
  obtain ⟨r, hr⟩ := PreOrderVisit_returns h k n hk
  have hrk := hr k (le_refl _)
  refine ⟨r, ⟨k, hr⟩, ⟨k, fun fuel hf => ?_⟩, ?_, ?_, ?_⟩
  · show LeafVisit h fuel (some n) = _
    rw [LeafVisit_eq_map, hr fuel hf]; rfl
  · intro x
    constructor
    · intro hx
      obtain ⟨hxr, hxl⟩ := List.mem_filter.mp hx
      obtain ⟨d, rfl, hd⟩ := PreOrderVisit_mem h k n r hrk x hxr
      exact ⟨d, rfl, hd, hxl⟩
    · rintro ⟨d, rfl, hd, hl⟩
      refine List.mem_filter.mpr ⟨?_, hl⟩
      rcases hd with rfl | hd
      · obtain ⟨t, rfl⟩ := PreOrderVisit_head h k d r hrk
        exact List.mem_cons_self _ _
      · obtain ⟨t, rfl, ht⟩ := PreOrderVisit_descendant h n d hd k r hrk
        exact List.mem_cons_of_mem _ ht
  · intro hl
    have hnil : GetChildren h n = [] := by
      simp only [IsLeaf, decide_eq_true_eq] at hl
      exact List.length_eq_zero.mp hl
    cases k with
    | zero => simp [acyclicWithin] at hk
    | succ k =>
      obtain ⟨rs, hF, rfl⟩ := (PreOrderVisit_succ h k n r).mp hrk
      rw [hnil] at hF
      cases hF
      simp [leafFilter, hl]
  · intro ht
    exact (PreOrderVisit_nodup h k n ht k r hrk).filter _

/-- Witness for C9: the leaves of the seven node tree `root{a{d,e}, b{f}, c}` are
`[d, e, f, c]`. -/
theorem LeafVisit_collects_leaves_witness :
    acyclicWithin sevenNodes 3 0 = true ∧
    Accept (LeafVisit sevenNodes 3) (some 0) = some [some 4, some 5, some 6, some 3] ∧
    ∃ r, Returns (fun fuel => Accept (PreOrderVisit sevenNodes fuel) (some 0)) r ∧
      Returns (fun fuel => Accept (LeafVisit sevenNodes fuel) (some 0))
        (r.filter (leafFilter sevenNodes)) :=
  ⟨by decide, by decide,
    (LeafVisit_collects_leaves sevenNodes 3 0 (by decide)).elim
      (fun r hh => ⟨r, hh.1, hh.2.1⟩)⟩

/-! ## Node operations: further claims -/

/-- C11: `n.SetChildren(cs...)` on a node whose child entries and arguments are
nodes returns `n`; afterwards every node that was a child of `n` before the
call and is not in `cs` has no parent, and every node in `cs` has parent `n`. -/
theorem SetChildren_parents (h : Heap V) (n : NodeId) (cs : List NodeIFace)
    (hold : none ∉ GetChildren h n) (hcs : none ∉ cs) :
    ∃ h1, SetChildren h n cs = some (h1, some n) ∧
      (∀ x, some x ∈ GetChildren h n → some x ∉ cs → GetParent h1 x = none) ∧
      (∀ x, some x ∈ cs → GetParent h1 x = some n) := by
  obtain ⟨h1, e, -, hpa, -⟩ := SetChildren_spec h n cs hold hcs
  refine ⟨h1, e, ?_, ?_⟩
  · intro x hx hxc
    simp only [GetParent, hpa, if_neg hxc, if_pos hx]
  · intro x hxc
    simp only [GetParent, hpa, if_pos hxc]

/-- Witness for C11: in the seven node tree the root has the children `a, b, c`;
after `SetChildren(d, a)` the nodes `b` and `c` have no parent and `d` and `a`
have the root as parent. -/
theorem SetChildren_parents_witness :
    none ∉ GetChildren sevenNodes 0 ∧
    ∃ h1, SetChildren sevenNodes 0 [some 4, some 1] = some (h1, some 0) ∧
      GetParent h1 2 = none ∧ GetParent h1 3 = none ∧
      GetParent h1 4 = some 0 ∧ GetParent h1 1 = some 0 :=
  ⟨by decide,
    (SetChildren_parents sevenNodes 0 [some 4, some 1] (by decide) (by decide)).elim
      (fun h1 hh => ⟨h1, hh.1, hh.2.1 2 (by decide) (by decide),
        hh.2.1 3 (by decide) (by decide), hh.2.2 4 (by decide), hh.2.2 1 (by decide)⟩)⟩

/-- C12: `n.RemoveAllChildren()` on a node whose child entries are nodes returns
`n`; afterwards `n` has no children, so it is a leaf, and every node that was a
child of `n` before the call has no parent. -/
theorem RemoveAllChildren_empties (h : Heap V) (n : NodeId)
    (hcs : none ∉ GetChildren h n) :
    ∃ h1, RemoveAllChildren h n = some (h1, some n) ∧
      GetChildren h1 n = [] ∧ IsLeaf h1 n = true ∧
      (∀ x, some x ∈ GetChildren h n → GetParent h1 x = none) := by
  obtain ⟨h1, e, hch, hpa, -⟩ := RemoveAllChildren_spec h n hcs
  have hnil : GetChildren h1 n = [] := by simp only [GetChildren, hch, if_true]
  refine ⟨h1, e, hnil, ?_, ?_⟩
  · unfold GetChildren at hnil
    simp only [IsLeaf, hnil, List.length_nil, decide_True]
  · intro x hx
    simp only [GetParent, hpa, if_pos hx]

/-- Witness for C12: `RemoveAllChildren` on the root of the seven node tree. -/
theorem RemoveAllChildren_empties_witness :
    none ∉ GetChildren sevenNodes 0 ∧
    ∃ h1, RemoveAllChildren sevenNodes 0 = some (h1, some 0) ∧
      GetChildren h1 0 = [] ∧ GetParent h1 1 = none ∧ GetParent h1 2 = none ∧
      GetParent h1 3 = none :=
  ⟨by decide,
    (RemoveAllChildren_empties sevenNodes 0 (by decide)).elim
      (fun h1 hh => ⟨h1, hh.1, hh.2.1, hh.2.2.2 1 (by decide), hh.2.2.2 2 (by decide),
        hh.2.2.2 3 (by decide)⟩)⟩

/-! ## Parent chains: `GetAncestors`, `GetAncestorsAndSelf`, `GetDepth` -/

theorem chainFrom_single (h : Heap V) (q : NodeIFace) (x : NodeId) :
    chainFrom h q [x] = true ↔ GetParent h x = q := by
  simp [chainFrom]

theorem chainFrom_snoc (h : Heap V) (q : NodeIFace) (l : List NodeId) (p x : NodeId) :
    chainFrom h q (l ++ [p, x]) = true ↔
      chainFrom h q (l ++ [p]) = true ∧ GetParent h x = some p := by
  induction l generalizing q with
  | nil => simp [chainFrom, and_assoc]
  | cons a l ih =>
    show chainFrom h q (a :: (l ++ [p, x])) = true ↔
      chainFrom h q (a :: (l ++ [p])) = true ∧ GetParent h x = some p
    simp only [chainFrom, Bool.and_eq_true, decide_eq_true_eq, ih, and_assoc]

theorem ancestorsLoop_chain (h : Heap V) (as : List NodeId) (x : NodeId)
    (acc : List NodeIFace) (fuel : Nat)
    (hc : chainFrom h none (as ++ [x]) = true) (hf : as.length < fuel) :
    ancestorsLoop h fuel x acc = some (as.map some ++ acc) := by
  induction as using List.reverseRecOn generalizing x acc fuel with
  | nil =>
    obtain ⟨f, rfl⟩ : ∃ f, fuel = f + 1 := ⟨fuel - 1, by omega⟩
    have hp : GetParent h x = none := (chainFrom_single h none x).mp hc
    simp [ancestorsLoop, hp]
  | append_singleton bs p ih =>
    obtain ⟨f, rfl⟩ : ∃ f, fuel = f + 1 := ⟨fuel - 1, by omega⟩
    rw [List.append_assoc] at hc
    obtain ⟨hc1, hp⟩ := (chainFrom_snoc h none bs p x).mp hc
    simp only [ancestorsLoop, hp]
    rw [ih p (some p :: acc) f hc1 (by simp at hf; omega)]
    simp

theorem GetDepth_chain (h : Heap V) (as : List NodeId) (x : NodeId) (fuel : Nat)
    (hc : chainFrom h none (as ++ [x]) = true) (hf : as.length < fuel) :
    GetDepth h fuel x = some as.length := by
  induction as using List.reverseRecOn generalizing x fuel with
  | nil =>
    obtain ⟨f, rfl⟩ : ∃ f, fuel = f + 1 := ⟨fuel - 1, by omega⟩
    have hp : GetParent h x = none := (chainFrom_single h none x).mp hc
    unfold GetParent at hp
    simp [GetDepth, IsRoot, hp]
  | append_singleton bs p ih =>
    obtain ⟨f, rfl⟩ : ∃ f, fuel = f + 1 := ⟨fuel - 1, by omega⟩
    rw [List.append_assoc] at hc
    obtain ⟨hc1, hp⟩ := (chainFrom_snoc h none bs p x).mp hc
    have hp2 : (h x).parent = some p := hp
    simp only [GetDepth, IsRoot, hp2, GetParent]
    rw [ih p f hc1 (by simp at hf; omega)]
    simp

/-- In a tree the nodes of a path of child links form a chain of parent links. -/
theorem childPathTo_chain (h : Heap V) (K : Nat) (a d : NodeId) (path : List NodeId)
    (ht : isTree h K a = true) (hp : childPathTo h a path d = true) :
    ∃ as, a :: path = as ++ [d] ∧ ∀ q, GetParent h a = q → chainFrom h q (as ++ [d]) = true := by
  induction path generalizing a K with
  | nil =>
    simp only [childPathTo, decide_eq_true_eq] at hp
    subst hp
    exact ⟨[], rfl, fun q hq => (chainFrom_single h q a).mpr hq⟩
  | cons b rest ih =>
    simp only [childPathTo, Bool.and_eq_true, decide_eq_true_eq] at hp
    cases K with
    | zero => simp [isTree] at ht
    | succ K =>
      obtain ⟨m, hm, hpb, htb⟩ := ((isTree_succ h K a).mp ht).2 (some b) hp.1
      cases hm
      obtain ⟨as, has, hchain⟩ := ih K b htb hp.2
      refine ⟨a :: as, by rw [has]; rfl, ?_⟩
      intro q hq
      simp only [List.cons_append, chainFrom, Bool.and_eq_true, decide_eq_true_eq]
      exact ⟨hq, hchain (some a) hpb⟩

/-- C13: for a chain `p0, ..., pk` of nodes in which `p0` is a root and every
later node has the node before it as parent (here `as = [p0, ..., p(k-1)]` and
`x = pk`), `x.GetAncestors()` returns exactly `as`: root first, immediate parent
last, without `x`; for a root it returns the empty sequence. -/
theorem GetAncestors_chain (h : Heap V) (as : List NodeId) (x : NodeId)
    (hc : chainFrom h none (as ++ [x]) = true) :
    Returns (fun fuel => GetAncestors h fuel x) (as.map some) ∧
    (GetParent h x = none → Returns (fun fuel => GetAncestors h fuel x) []) := by
  have hret : Returns (fun fuel => GetAncestors h fuel x) (as.map some) := by
    refine ⟨as.length + 1, fun fuel hf => ?_⟩
    show ancestorsLoop h fuel x [] = _
    rw [ancestorsLoop_chain h as x [] fuel hc (by omega)]
    simp
  refine ⟨hret, fun hroot => ?_⟩
  refine ⟨1, fun fuel hf => ?_⟩
  show ancestorsLoop h fuel x [] = _
  have := ancestorsLoop_chain h [] x [] fuel ((chainFrom_single h none x).mpr hroot) (by simpa using hf)
  simpa using this

/-- Witness for C13: in the seven node tree `f` has the ancestors `[root, b]`. -/
theorem GetAncestors_chain_witness :
    chainFrom sevenNodes none ([0, 2] ++ [6]) = true ∧
    GetAncestors sevenNodes 3 6 = some [some 0, some 2] ∧
    Returns (fun fuel => GetAncestors sevenNodes fuel 6) [some 0, some 2] :=
  ⟨by decide, by decide, (GetAncestors_chain sevenNodes [0, 2] 6 (by decide)).1⟩

/-- On trees: in a tree below a root `r`, for a node `d` reached from `r` by following
`k` child links (through the nodes of `path`, so `k` is the length of `path`),
`d.GetDepth()` returns `k`, `d.GetAncestors()` returns a sequence of length `k`
(the nodes of the path from `r` on, without `d`), and
`d.GetAncestorsAndSelf()` returns that sequence followed by `d`. -/
theorem GetDepth_child_links (h : Heap V) (K : Nat) (r d : NodeId) (path : List NodeId)
    (hroot : GetParent h r = none) (ht : isTree h K r = true)
    (hp : childPathTo h r path d = true) :
    Returns (fun fuel => GetDepth h fuel d) path.length ∧
    ∃ anc, anc = (r :: path).dropLast.map some ∧ anc.length = path.length ∧
      Returns (fun fuel => GetAncestors h fuel d) anc ∧
      Returns (fun fuel => GetAncestorsAndSelf h fuel d) (anc ++ [some d]) := by
  obtain ⟨as, has, hchain⟩ := childPathTo_chain h K r d path ht hp
  have hc := hchain none hroot
  have hlen : as.length = path.length := by
    have := congrArg List.length has
    simp at this
    omega
  have hanc : ∀ fuel, as.length < fuel → GetAncestors h fuel d = some (as.map some) := by
    intro fuel hf
    show ancestorsLoop h fuel d [] = _
    rw [ancestorsLoop_chain h as d [] fuel hc hf]
    simp
  refine ⟨⟨as.length + 1, fun fuel hf => ?_⟩, as.map some, ?_, ?_, ?_, ?_⟩
  · rw [← hlen]
    exact GetDepth_chain h as d fuel hc (by omega)
  · rw [has, List.dropLast_concat]
  · simp [hlen]
  · exact ⟨as.length + 1, fun fuel hf => hanc fuel (by omega)⟩
  · refine ⟨as.length + 1, fun fuel hf => ?_⟩
    simp only [GetAncestorsAndSelf, hanc fuel (by omega)]

/-- Example on the seven node tree: `f` is reached from the root through
`b`, so its depth is `2` and its ancestors are `[root, b]`. -/
theorem GetDepth_child_links_witness :
    GetParent sevenNodes 0 = none ∧ isTree sevenNodes 3 0 = true ∧
    childPathTo sevenNodes 0 [2, 6] 6 = true ∧
    GetDepth sevenNodes 3 6 = some 2 ∧
    GetAncestorsAndSelf sevenNodes 3 6 = some [some 0, some 2, some 6] ∧
    Returns (fun fuel => GetDepth sevenNodes fuel 6) 2 :=
  ⟨by decide, by decide, by decide, by decide, by decide,
    (GetDepth_child_links sevenNodes 3 0 6 [2, 6] (by decide) (by decide) (by decide)).1⟩

theorem linkedPathTo_chain (h : Heap V) (a d : NodeId) (path : List NodeId)
    (hp : linkedPathTo h a path d = true) :
    ∃ as, a :: path = as ++ [d] ∧ ∀ q, GetParent h a = q → chainFrom h q (as ++ [d]) = true := by
  induction path generalizing a with
  | nil =>
    simp only [linkedPathTo, decide_eq_true_eq] at hp
    subst hp
    exact ⟨[], rfl, fun q hq => (chainFrom_single h q a).mpr hq⟩
  | cons b rest ih =>
    simp only [linkedPathTo, Bool.and_eq_true, decide_eq_true_eq] at hp
    obtain ⟨as, has, hchain⟩ := ih b hp.2
    refine ⟨a :: as, by rw [has]; rfl, ?_⟩
    intro q hq
    simp only [List.cons_append, chainFrom, Bool.and_eq_true, decide_eq_true_eq]
    exact ⟨hq, hchain (some a) hp.1.2⟩

/-- In a tree every path of child links is a path whose parent links point
back. -/
theorem isTree_linkedPathTo (h : Heap V) (K : Nat) (a d : NodeId) (path : List NodeId)
    (ht : isTree h K a = true) (hp : childPathTo h a path d = true) :
    linkedPathTo h a path d = true := by
  induction path generalizing a K with
  | nil => exact hp
  | cons b rest ih =>
    simp only [childPathTo, Bool.and_eq_true, decide_eq_true_eq] at hp
    cases K with
    | zero => simp [isTree] at ht
    | succ K =>
      obtain ⟨m, hm, hpb, htb⟩ := ((isTree_succ h K a).mp ht).2 (some b) hp.1
      cases hm
      simp only [linkedPathTo, Bool.and_eq_true, decide_eq_true_eq]
      exact ⟨⟨hp.1, hpb⟩, ih K b htb hp.2⟩

/-- C14 (as stated, refuted): two heaps built with `AddChild` and `SetChildren`
in which the root `r = 0` lists `a = 1`, so `a` is reached from `r` by one child
link, and `a.GetDepth()` is not `1`.  After `t.AddChild(s); r.AddChild(a);
s.AddChild(a)` the parent of `a` is `s`, its depth is `2` and its ancestors are
`[t, s]`.  After `r.AddChild(a); r.SetChildren(b)` the root lists `[a, b]`, the
parent of `a` is nil, its depth is `0` and it has no ancestors. -/
theorem GetDepth_child_links_counterexample :
    (GetParent reparented 0 = none ∧ GetChildren reparented 0 = [some 1] ∧
      childPathTo reparented 0 [1] 1 = true ∧
      Returns (fun fuel => GetDepth reparented fuel 1) 2 ∧
      Returns (fun fuel => GetAncestors reparented fuel 1) [some 5, some 6]) ∧
    (GetParent keptChild 0 = none ∧ GetChildren keptChild 0 = [some 1, some 2] ∧
      childPathTo keptChild 0 [1] 1 = true ∧
      Returns (fun fuel => GetDepth keptChild fuel 1) 0 ∧
      Returns (fun fuel => GetAncestors keptChild fuel 1) []) := by
  have hc1 : chainFrom reparented none ([5, 6] ++ [1]) = true := by decide
  have hc2 : chainFrom keptChild none ([] ++ [1]) = true := by decide
  refine ⟨⟨by decide, by decide, by decide, ⟨3, fun fuel hf => ?_⟩, ⟨3, fun fuel hf => ?_⟩⟩,
    ⟨by decide, by decide, by decide, ⟨1, fun fuel hf => ?_⟩, ⟨1, fun fuel hf => ?_⟩⟩⟩
  · exact GetDepth_chain reparented [5, 6] 1 fuel hc1 (by simpa using hf)
  · exact ancestorsLoop_chain reparented [5, 6] 1 [] fuel hc1 (by simpa using hf)
  · exact GetDepth_chain keptChild [] 1 fuel hc2 (by simpa using hf)
  · exact ancestorsLoop_chain keptChild [] 1 [] fuel hc2 (by simpa using hf)

/-- C14 (amended): for a root `r` and a node `d` reached from `r` by following
`k` child links (through the nodes of `path`, so `k` is the length of `path`),
where the parent link of every node on the way points back to the node it was
reached from, `d.GetDepth()` returns `k`, `d.GetAncestors()` returns a sequence
of length `k` (the nodes of the path from `r` on, without `d`), and
`d.GetAncestorsAndSelf()` returns that sequence followed by `d`. -/
theorem GetDepth_linked_path (h : Heap V) (r d : NodeId) (path : List NodeId)
    (hroot : GetParent h r = none) (hp : linkedPathTo h r path d = true) :
    Returns (fun fuel => GetDepth h fuel d) path.length ∧
    ∃ anc, anc = (r :: path).dropLast.map some ∧ anc.length = path.length ∧
      Returns (fun fuel => GetAncestors h fuel d) anc ∧
      Returns (fun fuel => GetAncestorsAndSelf h fuel d) (anc ++ [some d]) := by
  obtain ⟨as, has, hchain⟩ := linkedPathTo_chain h r d path hp
  have hc := hchain none hroot
  have hlen : as.length = path.length := by
    have := congrArg List.length has
    simp at this
    omega
  have hanc : ∀ fuel, as.length < fuel → GetAncestors h fuel d = some (as.map some) := by
    intro fuel hf
    show ancestorsLoop h fuel d [] = _
    rw [ancestorsLoop_chain h as d [] fuel hc hf]
    simp
  refine ⟨⟨as.length + 1, fun fuel hf => ?_⟩, as.map some, ?_, ?_, ?_, ?_⟩
  · rw [← hlen]
    exact GetDepth_chain h as d fuel hc (by omega)
  · rw [has, List.dropLast_concat]
  · simp [hlen]
  · exact ⟨as.length + 1, fun fuel hf => hanc fuel (by omega)⟩
  · refine ⟨as.length + 1, fun fuel hf => ?_⟩
    simp only [GetAncestorsAndSelf, hanc fuel (by omega)]

/-- Witness for C14 (amended): in the seven node tree `f` is reached from the
root through `b` over links whose parent links point back, so its depth is `2`
and its ancestors are `[root, b]`. -/
theorem GetDepth_linked_path_witness :
    GetParent sevenNodes 0 = none ∧ linkedPathTo sevenNodes 0 [2, 6] 6 = true ∧
    GetDepth sevenNodes 3 6 = some 2 ∧
    GetAncestors sevenNodes 3 6 = some [some 0, some 2] ∧
    GetAncestorsAndSelf sevenNodes 3 6 = some [some 0, some 2, some 6] ∧
    Returns (fun fuel => GetDepth sevenNodes fuel 6) 2 ∧
    Returns (fun fuel => GetAncestorsAndSelf sevenNodes fuel 6) [some 0, some 2, some 6] :=
  have hh := GetDepth_linked_path sevenNodes 0 6 [2, 6] (by decide) (by decide)
  ⟨by decide, by decide, by decide, by decide, by decide, hh.1,
    hh.2.elim (fun anc ha => by
      have e : anc ++ [some 6] = [some 0, some 2, some 6] := by rw [ha.1]; rfl
      rw [← e]; exact ha.2.2.2)⟩

/-! ## `GetHeight` -/

theorem foldl_max_spec (t : List Nat) (a : Nat) :
    (t.foldl (fun m x => if x > m then x else m) a = a ∨
      t.foldl (fun m x => if x > m then x else m) a ∈ t) ∧
    a ≤ t.foldl (fun m x => if x > m then x else m) a ∧
    ∀ x ∈ t, x ≤ t.foldl (fun m x => if x > m then x else m) a := by
  induction t generalizing a with
  | nil => simp
  | cons b t ih =>
    simp only [List.foldl_cons]
    obtain ⟨h1, h2, h3⟩ := ih (if b > a then b else a)
    refine ⟨?_, ?_, ?_⟩
    · rcases h1 with h1 | h1
      · rw [h1]
        by_cases hba : b > a
        · simp [hba]
        · simp [hba]
      · exact Or.inr (List.mem_cons_of_mem _ h1)
    · refine le_trans ?_ h2
      split <;> omega
    · intro x hx
      rcases List.mem_cons.mp hx with rfl | hx
      · refine le_trans ?_ h2
        split <;> omega
      · exact h3 x hx

/-- On a non-empty slice `maxIntSlice` returns an entry of the slice that no
entry exceeds. -/
theorem maxIntSlice_spec (v : List Nat) (hv : v ≠ []) :
    maxIntSlice v ∈ v ∧ ∀ x ∈ v, x ≤ maxIntSlice v := by
  cases v with
  | nil => exact absurd rfl hv
  | cons a t =>
    obtain ⟨h1, h2, h3⟩ := foldl_max_spec t a
    have e : maxIntSlice (a :: t) = t.foldl (fun m x => if x > m then x else m) a := rfl
    rw [e]
    refine ⟨?_, ?_⟩
    · rcases h1 with h1 | h1
      · rw [h1]; exact List.mem_cons_self _ _
      · exact List.mem_cons_of_mem _ h1
    · intro x hx
      rcases List.mem_cons.mp hx with rfl | hx
      · exact h2
      · exact h3 x hx

theorem collectHeights_eq_some (height : NodeIFace → Option Nat) (cs : List NodeIFace)
    (acc r : List Nat) :
    collectHeights height cs acc = some r ↔
      ∃ hs, List.Forall₂ (fun c x => height c = some x) cs hs ∧ r = acc ++ hs := by
  induction cs generalizing acc with
  | nil =>
    constructor
    · intro hr
      simp only [collectHeights, Option.some.injEq] at hr
      exact ⟨[], List.Forall₂.nil, by simp [hr]⟩
    · rintro ⟨hs, hF, rfl⟩
      cases hF
      simp [collectHeights]
  | cons c cs ih =>
    constructor
    · intro hr
      simp only [collectHeights] at hr
      split at hr
      · cases hr
      · rename_i v hv
        obtain ⟨hs, hF, rfl⟩ := (ih _).mp hr
        exact ⟨v :: hs, List.Forall₂.cons hv hF, by simp⟩
    · rintro ⟨hs, hF, rfl⟩
      cases hF with
      | cons hv hF =>
        simp only [collectHeights, hv]
        exact (ih _).mpr ⟨_, hF, by simp⟩

theorem GetHeight_none (h : Heap V) (fuel : Nat) : GetHeight h fuel none = none := by
  cases fuel <;> rfl

theorem GetHeight_leaf (h : Heap V) (fuel : Nat) (n : NodeId) (hl : IsLeaf h n = true) :
    GetHeight h (fuel + 1) (some n) = some 0 := by
  simp [GetHeight, hl]

theorem GetHeight_inner (h : Heap V) (fuel : Nat) (n : NodeId) (hl : IsLeaf h n = false)
    (H : Nat) :
    GetHeight h (fuel + 1) (some n) = some H ↔
      ∃ hs, List.Forall₂ (fun c x => GetHeight h fuel c = some x) (GetChildren h n) hs ∧
        H = maxIntSlice hs + 1 := by
  simp only [GetHeight, hl, Bool.false_eq_true, if_false]
  constructor
  · intro hr
    split at hr
    · cases hr
    · rename_i heights hh
      obtain ⟨hs, hF, he⟩ := (collectHeights_eq_some _ _ _ _).mp hh
      injection hr with hr
      exact ⟨hs, hF, by simp [← hr, he]⟩
  · rintro ⟨hs, hF, rfl⟩
    have := (collectHeights_eq_some (GetHeight h fuel) (GetChildren h n) [] _).mpr ⟨hs, hF, rfl⟩
    rw [this]
    simp

/-- A recursion through every child entry returns on every finite acyclic graph
of child links, with the same result for every fuel from the height bound on. -/
theorem recursion_total {R : Type} (h : Heap V) (visit : Nat → NodeIFace → Option R)
    (combine : NodeId → List R → R)
    (hstep : ∀ fuel n rs, List.Forall₂ (fun c rc => visit fuel c = some rc)
        (GetChildren h n) rs → visit (fuel + 1) (some n) = some (combine n rs))
    (k : Nat) (n : NodeId) (hk : acyclicWithin h k n = true) :
    ∃ r, ∀ fuel, k ≤ fuel → visit fuel (some n) = some r := by
  induction k generalizing n with
  | zero => simp [acyclicWithin] at hk
  | succ k ih =>
    rw [acyclicWithin_succ] at hk
    have hex : ∀ c ∈ GetChildren h n, ∃ rc, ∀ fuel, k ≤ fuel → visit fuel c = some rc := by
      intro c hc
      obtain ⟨m, rfl, hm⟩ := hk c hc
      exact ih m hm
    obtain ⟨rs, hrs⟩ := forall2_of_forall_exists _ hex
    refine ⟨combine n rs, ?_⟩
    intro fuel hfuel
    obtain ⟨f, rfl⟩ : ∃ f, fuel = f + 1 := ⟨fuel - 1, by omega⟩
    apply hstep
    exact hrs.imp (fun c rc H => H f (by omega))

theorem GetHeight_returns (h : Heap V) (k : Nat) (n : NodeId)
    (hk : acyclicWithin h k n = true) :
    ∃ H, ∀ fuel, k ≤ fuel → GetHeight h fuel (some n) = some H := by
  apply recursion_total h (GetHeight h)
    (fun n hs => if IsLeaf h n = true then 0 else maxIntSlice hs + 1) _ k n hk
  intro fuel n hs hF
  dsimp only
  by_cases hl : IsLeaf h n = true
  · rw [if_pos hl]; exact GetHeight_leaf h fuel n hl
  · rw [if_neg hl]
    have hl2 : IsLeaf h n = false := by simpa using hl
    exact (GetHeight_inner h fuel n hl2 _).mpr ⟨hs, hF, rfl⟩

theorem IsLeaf_children (h : Heap V) (n : NodeId) :
    IsLeaf h n = true ↔ GetChildren h n = [] := by
  simp [IsLeaf, GetChildren, List.length_eq_zero]

/-- The value `GetHeight` returns bounds the length of every path of child
links from the node, and is the length of one such path that ends in a leaf. -/
theorem GetHeight_paths (h : Heap V) (fuel : Nat) (n : NodeId) (H : Nat)
    (hr : GetHeight h fuel (some n) = some H) :
    (∀ path d, childPathTo h n path d = true → path.length ≤ H) ∧
    (∃ path d, childPathTo h n path d = true ∧ IsLeaf h d = true ∧ path.length = H) := by
  induction fuel generalizing n H with
  | zero => simp [GetHeight] at hr
  | succ f ih =>
    by_cases hl : IsLeaf h n = true
    · rw [GetHeight_leaf h f n hl] at hr
      injection hr with hr
      subst hr
      have hnil := (IsLeaf_children h n).mp hl
      refine ⟨?_, [], n, by simp [childPathTo], hl, rfl⟩
      intro path d hp
      cases path with
      | nil => simp
      | cons b rest => simp [childPathTo, hnil] at hp
    · have hl2 : IsLeaf h n = false := by simpa using hl
      obtain ⟨hs, hF, rfl⟩ := (GetHeight_inner h f n hl2 H).mp hr
      have hne : hs ≠ [] := by
        intro e
        subst e
        have hlen := hF.length_eq
        exact hl ((IsLeaf_children h n).mpr (List.length_eq_zero.mp (by simpa using hlen)))
      obtain ⟨hmem, hmax⟩ := maxIntSlice_spec hs hne
      constructor
      · intro path d hp
        cases path with
        | nil => simp
        | cons b rest =>
          simp only [childPathTo, Bool.and_eq_true, decide_eq_true_eq] at hp
          obtain ⟨x, hx, hbx⟩ := forall2_exists_of_mem_left hF hp.1
          have := (ih b x hbx).1 rest d hp.2
          have := hmax x hx
          simp only [List.length_cons]
          omega
      · obtain ⟨c, hc, hcx⟩ := forall2_exists_of_mem_right hF hmem
        cases c with
        | none => rw [GetHeight_none] at hcx; cases hcx
        | some m =>
          obtain ⟨path, d, hp, hd, hlen⟩ := (ih m _ hcx).2
          exact ⟨m :: path, d, by simp [childPathTo, hc, hp], hd, by simp [hlen]⟩

/-- C15: on a finite acyclic graph of child links below `n`, `n.GetHeight()`
returns `0` when `n` is a leaf and otherwise one more than the largest of the
heights its children return.  The value is the number of child links on the
longest downward path from `n`: no path is longer, and one of that length ends
in a leaf. -/
theorem GetHeight_leaf_or_max (h : Heap V) (k : Nat) (n : NodeId)
    (hk : acyclicWithin h k n = true) :
    ∃ hs, List.Forall₂ (fun c x => Returns (fun fuel => GetHeight h fuel c) x)
        (GetChildren h n) hs ∧
      (IsLeaf h n = true → Returns (fun fuel => GetHeight h fuel (some n)) 0) ∧
      (IsLeaf h n = false → ∃ m, m ∈ hs ∧ (∀ x ∈ hs, x ≤ m) ∧
        Returns (fun fuel => GetHeight h fuel (some n)) (m + 1)) ∧
      ∃ H, Returns (fun fuel => GetHeight h fuel (some n)) H ∧
        (∀ path d, childPathTo h n path d = true → path.length ≤ H) ∧
        (∃ path d, childPathTo h n path d = true ∧ IsLeaf h d = true ∧ path.length = H) := by
  cases k with
  | zero => simp [acyclicWithin] at hk
  | succ k =>
    have hch := (acyclicWithin_succ h k n).mp hk
    have hex : ∀ c ∈ GetChildren h n,
        ∃ x, ∀ fuel, k ≤ fuel → GetHeight h fuel c = some x := by
      intro c hc
      obtain ⟨m, rfl, hm⟩ := hch c hc
      exact GetHeight_returns h k m hm
    obtain ⟨hs, hrs⟩ := forall2_of_forall_exists _ hex
    obtain ⟨H, hH⟩ := GetHeight_returns h (k + 1) n hk
    refine ⟨hs, hrs.imp (fun c x Hc => ⟨k, Hc⟩), ?_, ?_, H, ⟨k + 1, hH⟩,
      GetHeight_paths h (k + 1) n H (hH (k + 1) (le_refl _))⟩
    · intro hl
      refine ⟨1, fun fuel hf => ?_⟩
      obtain ⟨f, rfl⟩ : ∃ f, fuel = f + 1 := ⟨fuel - 1, by omega⟩
      exact GetHeight_leaf h f n hl
    · intro hl
      have hne : hs ≠ [] := by
        intro e
        subst e
        have hlen := hrs.length_eq
        have hnil := (IsLeaf_children h n).mpr (List.length_eq_zero.mp (by simpa using hlen))
        rw [hl] at hnil
        cases hnil
      obtain ⟨hmem, hmax⟩ := maxIntSlice_spec hs hne
      refine ⟨maxIntSlice hs, hmem, hmax, k + 1, fun fuel hf => ?_⟩
      obtain ⟨f, rfl⟩ : ∃ f, fuel = f + 1 := ⟨fuel - 1, by omega⟩
      exact (GetHeight_inner h f n hl _).mpr ⟨hs, hrs.imp (fun c x Hc => Hc f (by omega)), rfl⟩

/-- Witness for C15: in the seven node tree the root has height `2`, `b` has
height `1` and the leaf `c` has height `0`. -/
theorem GetHeight_leaf_or_max_witness :
    acyclicWithin sevenNodes 3 0 = true ∧
    GetHeight sevenNodes 3 (some 0) = some 2 ∧ GetHeight sevenNodes 3 (some 2) = some 1 ∧
    GetHeight sevenNodes 3 (some 3) = some 0 ∧
    ∃ H, Returns (fun fuel => GetHeight sevenNodes fuel (some 0)) H ∧
      (∀ path d, childPathTo sevenNodes 0 path d = true → path.length ≤ H) :=
  ⟨by decide, by decide, by decide, by decide,
    (GetHeight_leaf_or_max sevenNodes 3 0 (by decide)).elim
      (fun _ hh => hh.2.2.2.elim (fun H hH => ⟨H, hH.1, hH.2.1⟩))⟩

/-! ## `GetSize` -/

theorem addSizes_eq_some (size : NodeIFace → Option Nat) (cs : List NodeIFace) (acc r : Nat) :
    addSizes size cs acc = some r ↔
      ∃ ss, List.Forall₂ (fun c s => size c = some s) cs ss ∧ r = acc + ss.sum := by
  induction cs generalizing acc with
  | nil =>
    constructor
    · intro hr
      simp only [addSizes, Option.some.injEq] at hr
      exact ⟨[], List.Forall₂.nil, by simp [hr]⟩
    · rintro ⟨ss, hF, rfl⟩
      cases hF
      simp [addSizes]
  | cons c cs ih =>
    constructor
    · intro hr
      simp only [addSizes] at hr
      split at hr
      · cases hr
      · rename_i v hv
        obtain ⟨ss, hF, rfl⟩ := (ih _).mp hr
        exact ⟨v :: ss, List.Forall₂.cons hv hF, by simp [Nat.add_assoc]⟩
    · rintro ⟨ss, hF, rfl⟩
      cases hF with
      | cons hv hF =>
        simp only [addSizes, hv]
        exact (ih _).mpr ⟨_, hF, by simp [Nat.add_assoc]⟩

theorem addSizes_map_length (size : NodeIFace → Option Nat)
    (acc : NodeIFace → Option (List NodeIFace))
    (hacc : ∀ c, size c = (acc c).map List.length) (cs nodes : List NodeIFace) :
    addSizes size cs nodes.length = (appendVisits acc cs nodes).map List.length := by
  induction cs generalizing nodes with
  | nil => rfl
  | cons c cs ih =>
    simp only [addSizes, appendVisits, hacc c]
    cases acc c with
    | none => rfl
    | some v =>
      simp only [Option.map_some']
      rw [← List.length_append]
      exact ih _

/-- At every fuel and on every node `GetSize` returns the length of the
pre-order result. -/
theorem GetSize_eq_length (h : Heap V) (fuel : Nat) (n : NodeIFace) :
    GetSize h fuel n = (PreOrderVisit h fuel n).map List.length := by
  induction fuel generalizing n with
  | zero => rfl
  | succ f ih =>
    cases n with
    | none => rfl
    | some n =>
      simp only [GetSize, PreOrderVisit]
      have := addSizes_map_length (GetSize h f) (Accept (PreOrderVisit h f)) (fun c => by
        cases c with
        | none => cases f <;> rfl
        | some m => exact ih (some m)) (GetChildren h n) [some n]
      simpa using this

/-- C16: on a finite acyclic graph of child links below `n`, `n.GetSize()`
returns one more than the sum of the sizes its children return.  The number is
the length of the pre-order result and of the post-order result for `n`, whose
entries are `n` and the descendants of `n`, each once on a tree. -/
theorem GetSize_one_plus_children (h : Heap V) (k : Nat) (n : NodeId)
    (hk : acyclicWithin h k n = true) :
    ∃ ss rpre rpost,
      List.Forall₂ (fun c s => Returns (fun fuel => GetSize h fuel c) s) (GetChildren h n) ss ∧
      Returns (fun fuel => GetSize h fuel (some n)) (1 + ss.sum) ∧
      Returns (fun fuel => Accept (PreOrderVisit h fuel) (some n)) rpre ∧
      Returns (fun fuel => Accept (PostOrderVisit h fuel) (some n)) rpost ∧
      rpre.length = 1 + ss.sum ∧ rpost.length = 1 + ss.sum ∧
      (∀ x, x ∈ rpre ↔ ∃ d, x = some d ∧ (d = n ∨ Descendant h n d)) ∧
      (isTree h k n = true → rpre.Nodup) := by
  cases k with
  | zero => simp [acyclicWithin] at hk
  | succ k =>
    have hch := (acyclicWithin_succ h k n).mp hk
    have hex : ∀ c ∈ GetChildren h n,
        ∃ s, ∀ fuel, k ≤ fuel → GetSize h fuel c = some s := by
      intro c hc
      obtain ⟨m, rfl, hm⟩ := hch c hc
      obtain ⟨rc, hrc⟩ := PreOrderVisit_returns h k m hm
      exact ⟨rc.length, fun fuel hf => by rw [GetSize_eq_length, hrc fuel hf]; rfl⟩
    obtain ⟨ss, hss⟩ := forall2_of_forall_exists _ hex
    obtain ⟨rpre, hpre⟩ := PreOrderVisit_returns h (k + 1) n hk
    obtain ⟨rpost, hpost⟩ := PostOrderVisit_returns h (k + 1) n hk
    have hsize : ∀ fuel, k + 1 ≤ fuel → GetSize h fuel (some n) = some (1 + ss.sum) := by
      intro fuel hf
      obtain ⟨f, rfl⟩ : ∃ f, fuel = f + 1 := ⟨fuel - 1, by omega⟩
      exact (addSizes_eq_some (GetSize h f) (GetChildren h n) 1 _).mpr
        ⟨ss, hss.imp (fun c s H => H f (by omega)), rfl⟩
    have hprek := hpre (k + 1) (le_refl _)
    have hlen : rpre.length = 1 + ss.sum := by
      have e := GetSize_eq_length h (k + 1) (some n)
      rw [hsize (k + 1) (le_refl _), hprek] at e
      simpa using e.symm
    obtain ⟨r1, hr1, hperm⟩ := PostOrderVisit_perm h (k + 1) (some n) rpost
      (hpost (k + 1) (le_refl _))
    rw [hprek] at hr1
    injection hr1 with hr1
    subst hr1
    refine ⟨ss, rpre, rpost, hss.imp (fun c s H => ⟨k, H⟩), ⟨k + 1, hsize⟩, ⟨k + 1, hpre⟩,
      ⟨k + 1, hpost⟩, hlen, by rw [hperm.length_eq, hlen], ?_, ?_⟩
    · intro x
      constructor
      · exact PreOrderVisit_mem h (k + 1) n rpre hprek x
      · rintro ⟨d, rfl, hd⟩
        rcases hd with rfl | hd
        · obtain ⟨t, rfl⟩ := PreOrderVisit_head h (k + 1) d rpre hprek
          exact List.mem_cons_self _ _
        · obtain ⟨t, rfl, ht⟩ := PreOrderVisit_descendant h n d hd (k + 1) rpre hprek
          exact List.mem_cons_of_mem _ ht
    · intro ht
      exact PreOrderVisit_nodup h (k + 1) n ht (k + 1) rpre hprek

/-- Witness for C16: the seven node tree has size `7`, its subtree below `a` has
size `3`. -/
theorem GetSize_one_plus_children_witness :
    acyclicWithin sevenNodes 3 0 = true ∧
    GetSize sevenNodes 3 (some 0) = some 7 ∧ GetSize sevenNodes 3 (some 1) = some 3 ∧
    ∃ (ss : List Nat) (rpre : List NodeIFace),
      Returns (fun fuel => GetSize sevenNodes fuel (some 0)) (1 + ss.sum) ∧
      rpre.length = 1 + ss.sum ∧
      Returns (fun fuel => Accept (PreOrderVisit sevenNodes fuel) (some 0)) rpre :=
  ⟨by decide, by decide, by decide,
    (GetSize_one_plus_children sevenNodes 3 0 (by decide)).elim
      (fun ss hh => hh.elim (fun rpre hh2 => hh2.elim (fun _ hh3 =>
        ⟨ss, rpre, hh3.2.1, hh3.2.2.2.2.1, hh3.2.2.1⟩)))⟩

/-! ## `NewNode`, siblings, leaves in both orders, removal by swap -/

theorem count_eq_one_of_nodup (r : List NodeIFace) (hnd : r.Nodup) (x : NodeIFace)
    (hx : x ∈ r) : List.count x r = 1 := by
  induction r with
  | nil => simp at hx
  | cons a t ih =>
    rw [List.nodup_cons] at hnd
    by_cases hxa : x = a
    · subst hxa
      rw [List.count_cons_self, List.count_eq_zero_of_not_mem hnd.1]
    · have hxt : x ∈ t := by
        rcases List.mem_cons.mp hx with e | e
        · exact absurd e hxa
        · exact e
      rw [List.count_cons_of_ne hxa, ih hnd.2 hxt]

theorem count_le_one_of_nodup (r : List NodeIFace) (hnd : r.Nodup) (x : NodeIFace) :
    List.count x r ≤ 1 := by
  by_cases hx : x ∈ r
  · rw [count_eq_one_of_nodup r hnd x hx]
  · rw [List.count_eq_zero_of_not_mem hx]; omega

/-- C17: `NewNode(v, nil)` returns a new node with value `v`, no parent (a root)
and no children (a leaf); `NewNode(v, &cs)` for a list `cs` of nodes returns a
new node with value `v` whose children are exactly `cs`, in order, and every
node of `cs` has the new node as parent. -/
theorem NewNode_fields [Inhabited V] (h : Heap V) (a : NodeId) (v : V) (cs : List NodeId) :
    (∃ h1, NewNode h a v none = some (h1, some a) ∧ GetValue h1 a = v ∧
      GetParent h1 a = none ∧ IsRoot h1 a = true ∧
      GetChildren h1 a = [] ∧ IsLeaf h1 a = true) ∧
    (∃ h1, NewNode h a v (some (cs.map some)) = some (h1, some a) ∧ GetValue h1 a = v ∧
      GetChildren h1 a = cs.map some ∧ ∀ x ∈ cs, GetParent h1 x = some a) := by
  constructor
  · refine ⟨_, rfl, ?_, ?_, ?_, ?_, ?_⟩ <;>
      simp [SetValue, GetValue, GetParent, IsRoot, GetChildren, IsLeaf, store_apply]
  · have hold : none ∉ GetChildren
        (SetValue (h.store a { value := default, children := [], parent := none }) a v).1 a := by
      simp [SetValue, GetChildren, store_apply]
    have hcs : none ∉ cs.map some := by simp
    obtain ⟨h1, e, hch, hpa, hv⟩ := SetChildren_spec _ a (cs.map some) hold hcs
    refine ⟨h1, e, ?_, ?_, ?_⟩
    · simp [GetValue, hv, SetValue, store_apply]
    · simp [GetChildren, hch, SetValue, store_apply]
    · intro x hx
      have hmem : some x ∈ cs.map some := List.mem_map.mpr ⟨x, hx, rfl⟩
      simp only [GetParent, hpa, if_pos hmem]

/-- Example for C17: on the heap of fresh nodes, where the zero value is `0`,
`NewNode(42, &[1, 2])` at address `9` returns node `9` with value `42`, the
children `[1, 2]` and itself as their parent; `NewNode(42, nil)` returns a node
with value `42`, no parent and no children. -/
theorem NewNode_fields_witness :
    (NewNode fresh 9 42 (some [some 1, some 2])).map
        (fun r => (r.2, GetValue r.1 9, GetChildren r.1 9, GetParent r.1 1, GetParent r.1 2))
      = some (some 9, 42, [some 1, some 2], some 9, some 9) ∧
    (NewNode fresh 9 42 none).map
        (fun r => (r.2, GetValue r.1 9, GetChildren r.1 9, GetParent r.1 9))
      = some (some 9, 42, [], none) ∧
    ∃ h1, NewNode fresh 9 42 (some ([1, 2].map some)) = some (h1, some 9) ∧
      GetValue h1 9 = 42 :=
  ⟨by decide, by decide,
    (NewNode_fields fresh 9 42 [1, 2]).2.elim (fun h1 hh => ⟨h1, hh.1, hh.2.1⟩)⟩

/-- C18: `x.GetSiblingsAndSelf()` faults exactly when `x` has no parent, and so
does `x.GetSiblings()`; when `x` has the parent `p`, `x.GetSiblingsAndSelf()`
returns the children sequence of `p`. -/
theorem GetSiblingsAndSelf_faults_iff (h : Heap V) (x : NodeId) :
    (GetSiblingsAndSelf h x = none ↔ GetParent h x = none) ∧
    (GetSiblings h x = none ↔ GetParent h x = none) ∧
    (∀ p, GetParent h x = some p → GetSiblingsAndSelf h x = some (GetChildren h p)) := by
  refine ⟨?_, ?_, ?_⟩
  · cases hp : GetParent h x with
    | none => simp [GetSiblingsAndSelf, hp]
    | some p => simp [GetSiblingsAndSelf, hp]
  · cases hp : GetParent h x with
    | none => simp [GetSiblings, hp]
    | some p =>
      obtain ⟨arr, len, e, -⟩ := removeRange_spec x (GetChildren h p)
      simp [GetSiblings, hp, e]
  · intro p hp
    simp [GetSiblingsAndSelf, hp]

/-- Witness for C18: in the seven node tree `c.GetSiblingsAndSelf()` is
`[a, b, c]`, and the call faults on the root. -/
theorem GetSiblingsAndSelf_faults_iff_witness :
    GetParent sevenNodes 3 = some 0 ∧
    GetSiblingsAndSelf sevenNodes 3 = some [some 1, some 2, some 3] ∧
    GetSiblingsAndSelf sevenNodes 0 = none ∧ GetSiblings sevenNodes 0 = none :=
  ⟨by decide,
    ((GetSiblingsAndSelf_faults_iff sevenNodes 3).2.2 0 (by decide)).trans (by decide),
    (GetSiblingsAndSelf_faults_iff sevenNodes 0).1.mpr (by decide),
    (GetSiblingsAndSelf_faults_iff sevenNodes 0).2.1.mpr (by decide)⟩

/-- The leaf visitor returns, at every fuel and on every node, the post-order
result restricted to the leaves. -/
theorem LeafVisit_eq_map_post (h : Heap V) (fuel : Nat) (n : NodeIFace) :
    LeafVisit h fuel n = (PostOrderVisit h fuel n).map (List.filter (leafFilter h)) := by
  induction fuel generalizing n with
  | zero => rfl
  | succ f ih =>
    cases n with
    | none => rfl
    | some n =>
      simp only [LeafVisit, PostOrderVisit]
      by_cases hl : IsLeaf h n = true
      · have hnil : GetChildren h n = [] := (IsLeaf_children h n).mp hl
        simp [hl, hnil, appendVisits, leafFilter]
      · rw [if_neg hl]
        have e := appendVisits_map_filter (leafFilter h) (Accept (LeafVisit h f))
          (Accept (PostOrderVisit h f)) (fun c => by
            cases c with
            | none => rfl
            | some m => exact ih (some m)) (GetChildren h n) []
        simp only [List.filter_nil] at e
        rw [e]
        cases appendVisits (Accept (PostOrderVisit h f)) (GetChildren h n) [] with
        | none => rfl
        | some nodes =>
          simp only [Option.map_some', List.filter_append, Option.some.injEq]
          simp [leafFilter, hl]

/-- C19: on a finite acyclic graph of child links below `n`, the pre-order and
the post-order result restricted to the leaves are the same sequence, the one
the leaf visitor returns; on a tree every leaf among `n` and its descendants
occurs exactly once in the pre-order result and exactly once in the post-order
result. -/
theorem PreOrder_PostOrder_leaves (h : Heap V) (k : Nat) (n : NodeId)
    (hk : acyclicWithin h k n = true) :
    ∃ rpre rpost,
      Returns (fun fuel => Accept (PreOrderVisit h fuel) (some n)) rpre ∧
      Returns (fun fuel => Accept (PostOrderVisit h fuel) (some n)) rpost ∧
      Returns (fun fuel => Accept (LeafVisit h fuel) (some n)) (rpre.filter (leafFilter h)) ∧
      rpost.filter (leafFilter h) = rpre.filter (leafFilter h) ∧
      (isTree h k n = true → ∀ d, (d = n ∨ Descendant h n d) → IsLeaf h d = true →
        List.count (some d) rpre = 1 ∧ List.count (some d) rpost = 1 ∧
        List.count (some d) (rpre.filter (leafFilter h)) = 1) := by
  obtain ⟨rpre, hpre⟩ := PreOrderVisit_returns h k n hk
  obtain ⟨rpost, hpost⟩ := PostOrderVisit_returns h k n hk
  have hprek := hpre k (le_refl _)
  have hpostk := hpost k (le_refl _)
  have e1 := LeafVisit_eq_map h k (some n)
  have e2 := LeafVisit_eq_map_post h k (some n)
  rw [hprek] at e1
  rw [hpostk, e1] at e2
  simp only [Option.map_some', Option.some.injEq] at e2
  refine ⟨rpre, rpost, ⟨k, hpre⟩, ⟨k, hpost⟩, ⟨k, fun fuel hf => ?_⟩, e2.symm, ?_⟩
  · show LeafVisit h fuel (some n) = _
    rw [LeafVisit_eq_map, hpre fuel hf]; rfl
  · intro ht d hd hl
    have hnd := PreOrderVisit_nodup h k n ht k rpre hprek
    obtain ⟨r1, hr1, hperm⟩ := PostOrderVisit_perm h k (some n) rpost hpostk
    rw [hprek] at hr1
    injection hr1 with hr1
    subst hr1
    have hmem : some d ∈ rpre := by
      rcases hd with rfl | hd
      · obtain ⟨t, rfl⟩ := PreOrderVisit_head h k d rpre hprek
        exact List.mem_cons_self _ _
      · obtain ⟨t, rfl, ht2⟩ := PreOrderVisit_descendant h n d hd k rpre hprek
        exact List.mem_cons_of_mem _ ht2
    refine ⟨count_eq_one_of_nodup rpre hnd _ hmem,
      count_eq_one_of_nodup rpost (hperm.nodup_iff.mpr hnd) _ (hperm.mem_iff.mpr hmem),
      count_eq_one_of_nodup _ (hnd.filter _) _ (List.mem_filter.mpr ⟨hmem, hl⟩)⟩

/-- Witness for C19: in the seven node tree the leaves of both orders are
`[d, e, f, c]`. -/
theorem PreOrder_PostOrder_leaves_witness :
    acyclicWithin sevenNodes 3 0 = true ∧
    (PreOrderVisit sevenNodes 3 (some 0)).map (List.filter (leafFilter sevenNodes))
      = some [some 4, some 5, some 6, some 3] ∧
    (PostOrderVisit sevenNodes 3 (some 0)).map (List.filter (leafFilter sevenNodes))
      = some [some 4, some 5, some 6, some 3] ∧
    ∃ rpre rpost,
      Returns (fun fuel => Accept (PreOrderVisit sevenNodes fuel) (some 0)) rpre ∧
      Returns (fun fuel => Accept (PostOrderVisit sevenNodes fuel) (some 0)) rpost ∧
      rpost.filter (leafFilter sevenNodes) = rpre.filter (leafFilter sevenNodes) :=
  ⟨by decide, by decide, by decide,
    (PreOrder_PostOrder_leaves sevenNodes 3 0 (by decide)).elim
      (fun rpre hh => hh.elim (fun rpost hh2 => ⟨rpre, rpost, hh2.1, hh2.2.1, hh2.2.2.2.1⟩))⟩

/-- C20: for a node `n` whose children are pairwise distinct and a child `c` of
`n` at index `i`, `n.RemoveChild(c)` returns `n` with one child less: the
children are the original sequence with the last child written into index `i`
and the last entry dropped.  When `c` is the last child this is the original
sequence without its last entry; otherwise index `i` holds the former last
child and every other index below the new length holds what it held before. -/
theorem RemoveChild_moves_last (h : Heap V) (n c : NodeId) (i : Nat)
    (hnd : (GetChildren h n).Nodup) (hc : (GetChildren h n)[i]? = some (some c)) :
    ∃ h1, RemoveChild h n (some c) = some (h1, some n) ∧
      GetChildren h1 n = ((GetChildren h n).set i
        ((GetChildren h n).getD ((GetChildren h n).length - 1) none)).take
          ((GetChildren h n).length - 1) ∧
      (GetChildren h1 n).length + 1 = (GetChildren h n).length ∧
      (i + 1 = (GetChildren h n).length → GetChildren h1 n = (GetChildren h n).dropLast) ∧
      (i + 1 < (GetChildren h n).length →
        (GetChildren h1 n)[i]? = (GetChildren h n)[(GetChildren h n).length - 1]? ∧
        ∀ j, j < (GetChildren h n).length - 1 → j ≠ i →
          (GetChildren h1 n)[j]? = (GetChildren h n)[j]?) := by
  obtain ⟨s, hs⟩ : ∃ s, s = GetChildren h n := ⟨_, rfl⟩
  rw [← hs] at hnd hc ⊢
  have hs2 : (h n).children = s := hs.symm
  have hil : i < s.length := by
    by_contra hn
    rw [List.getElem?_eq_none (by omega)] at hc
    cases hc
  have hi : s.getD i none = some c := by simp [hc]
  obtain ⟨h1, arr, len, e, hr, hch, -, -⟩ := RemoveChild_spec h n c
  rw [hs2] at e
  have e2 := removeRange_at c s (count_le_one_of_nodup s hnd _) i hil hi
  rw [e] at e2
  injection e2 with e2
  injection e2 with ea el
  have hres : GetChildren h1 n = (s.set i (s.getD (s.length - 1) none)).take (s.length - 1) := by
    simp only [GetChildren, hch, if_true, ea, el, take_set_set]
  refine ⟨h1, hr, hres, ?_, ?_, ?_⟩
  · rw [hres]; simp only [List.length_take, List.length_set]; omega
  · intro hlast
    rw [hres, List.dropLast_eq_take, List.set_take]
    apply List.set_eq_of_length_le
    simp only [List.length_take]; omega
  · intro hlt
    rw [hres]
    constructor
    · rw [List.getElem?_take_of_lt (by omega), List.getElem?_set_self hil]
      simp [List.getElem?_eq_getElem (show s.length - 1 < s.length by omega)]
    · intro j hj hji
      rw [List.getElem?_take_of_lt hj, List.getElem?_set_ne (fun e => hji e.symm)]

/-- Witness for C20: removing the first child `a` of the root of the seven node
tree, whose children are `[a, b, c]`, leaves `[c, b]`; removing the last child
`c` leaves `[a, b]`. -/
theorem RemoveChild_moves_last_witness :
    (GetChildren sevenNodes 0).Nodup ∧ (GetChildren sevenNodes 0)[0]? = some (some 1) ∧
    (RemoveChild sevenNodes 0 (some 3)).map (fun r => GetChildren r.1 0)
      = some [some 1, some 2] ∧
    ∃ h1, RemoveChild sevenNodes 0 (some 1) = some (h1, some 0) ∧
      GetChildren h1 0 = [some 3, some 2] :=
  ⟨by decide, by decide, by decide,
    (RemoveChild_moves_last sevenNodes 0 1 0 (by decide) (by decide)).elim
      (fun h1 hh => ⟨h1, hh.1, hh.2.1.trans (by decide)⟩)⟩

/-! ## `GetSiblings` and the children of the parent -/

theorem GetSize_none (h : Heap V) (fuel : Nat) : GetSize h fuel none = none := by
  cases fuel <;> rfl

theorem addSizes_nil_entry (size : NodeIFace → Option Nat) (hnone : size none = none)
    (cs : List NodeIFace) (acc : Nat) (hmem : none ∈ cs) : addSizes size cs acc = none := by
  induction cs generalizing acc with
  | nil => simp at hmem
  | cons c cs ih =>
    cases c with
    | none => simp only [addSizes, hnone]
    | some m =>
      have hmem1 : none ∈ cs := by simpa using hmem
      simp only [addSizes]
      split
      · rfl
      · exact ih _ hmem1

/-- With a nil entry among the children of `n`, `n.GetSize()` panics. -/
theorem GetSize_nil_child (h : Heap V) (n : NodeId) (hmem : none ∈ GetChildren h n)
    (fuel : Nat) : GetSize h fuel (some n) = none := by
  cases fuel with
  | zero => rfl
  | succ f => exact addSizes_nil_entry (GetSize h f) (GetSize_none h f) _ 1 hmem

/-- The heap after `x.GetSiblings()` when `x` occurs exactly once among the
children of its parent `p`: the children of `p` keep their length, their last
entry is nil, `x` is no longer among them, and `p.GetSize()` panics. -/
theorem GetSiblings_parent_after (h : Heap V) (x p : NodeId) (hp : GetParent h x = some p)
    (hx : List.count (some x) (GetChildren h p) = 1) :
    ∃ r h1, GetSiblings h x = some (r, h1) ∧
      (GetChildren h1 p).length = (GetChildren h p).length ∧
      GetChildren h1 p = r ++ [none] ∧ some x ∉ GetChildren h1 p ∧
      ∀ fuel, GetSize h1 fuel (some p) = none := by
  obtain ⟨s, hs⟩ : ∃ s, s = GetChildren h p := ⟨_, rfl⟩
  rw [← hs] at hx ⊢
  obtain ⟨arr, len, e, hlen, -, her, -, hsum⟩ := removeRange_spec x s
  have hmem : some x ∈ s := List.count_pos_iff.mp (by omega)
  obtain ⟨i, hil, hi⟩ := List.getElem_of_mem hmem
  have hi2 : s.getD i none = some x := by simp [List.getElem?_eq_getElem hil, hi]
  have e2 := removeRange_at x s (le_of_eq hx) i hil hi2
  rw [e] at e2
  injection e2 with e2
  injection e2 with ea el
  have hL : len + 1 = arr.length := by rw [hlen, el]; omega
  have harr : arr = arr.take len ++ [none] := by
    have h1 : arr.take (len + 1) = arr := by rw [hL]; exact List.take_length arr
    have h2 := her len (le_refl _)
    rw [List.take_succ] at h1
    simp only [List.getD_eq_getElem?_getD, List.getElem?_eq_getElem (show len < arr.length by omega),
      Option.getD_some] at h2
    rw [List.getElem?_eq_getElem (show len < arr.length by omega), h2] at h1
    simpa using h1.symm
  have hcnt : List.count (some x) (arr.take len) = 0 := by omega
  have hch : GetChildren (h.store p { h p with children := arr }) p = arr := by
    simp [GetChildren, store_apply]
  refine ⟨arr.take len, h.store p { h p with children := arr }, ?_, ?_, ?_, ?_, ?_⟩
  · simp only [GetSiblings, hp, ← hs, e]
  · rw [hch, hlen]
  · rw [hch]; exact harr
  · rw [hch, harr]
    intro hin
    rcases List.mem_append.mp hin with hin | hin
    · exact absurd (List.count_pos_iff.mpr hin) (by omega)
    · simp at hin
  · intro fuel
    apply GetSize_nil_child
    rw [hch, harr]
    simp

/-- C21: `GetSiblings` writes into the children of the parent.  In the seven
node tree the root has the children `[a, b, c]` and size `7`; after
`c.GetSiblings()`, which returns `[a, b]`, the children of the root are
`[a, b, nil]`: `c` is no longer among them, and `GetSize` on the root panics at
the nil entry for every fuel. -/
theorem GetSiblings_overwrites_parent_children :
    GetParent sevenNodes 3 = some 0 ∧ GetChildren sevenNodes 0 = [some 1, some 2, some 3] ∧
    GetSize sevenNodes 3 (some 0) = some 7 ∧
    ∃ r h1, GetSiblings sevenNodes 3 = some (r, h1) ∧ r = [some 1, some 2] ∧
      GetChildren h1 0 = [some 1, some 2, none] ∧ some 3 ∉ GetChildren h1 0 ∧
      ∀ fuel, GetSize h1 fuel (some 0) = none := by
  refine ⟨by decide, by decide, by decide, ?_⟩
  obtain ⟨r, h1, e, -, hch, hnot, hsize⟩ :=
    GetSiblings_parent_after sevenNodes 3 0 (by decide) (by decide)
  have hmap : (GetSiblings sevenNodes 3).map (fun q => q.1) = some [some 1, some 2] := by
    decide
  rw [e] at hmap
  simp only [Option.map_some', Option.some.injEq] at hmap
  subst hmap
  exact ⟨_, h1, e, rfl, hch, hnot, hsize⟩

end tree
